import Mathlib

/-!
Buddy allocator (`buddy_allocator.c`): shallow embedding and verification.

The C translation unit keeps the free/used state of a complete binary tree of
blocks in a bitmap (node `i` is bit `i - 1`).  `BuddyAllocator_getBuddy`
splits blocks on the way down, `BuddyAllocator_releaseBuddy` joins buddies on
the way up, `BuddyAllocator_malloc` / `BuddyAllocator_free` wrap them with the
level computation and the header word stored in front of every block.

Conventions of the embedding:

* C `int` values are `Int` (`num_levels`, levels, node indices, header words)
  and are not wrapped: the development is about runs in which no `int`
  computation overflows.  Quantities that the interface declares
  non-negative (`min_bucket_size`, the byte count passed to malloc, `size_t`
  arguments) are `Nat`.
* `1 << k` is `2 ^ k` (`shl1`); a negative count, undefined in C, is read as a
  shift by 0.  The code evaluates one only when `num_levels < 1`.
* `(int)floor(log2(x))` is exact for the integers that fit an `int`; for
  `x = 0` the C library yields `-inf`, whose conversion to `int` gives `INT_MIN`
  on the usual targets (x86-64, AArch64).  `floorLog2` follows that.
* recursion is given an explicit budget of nested calls; `Outcome.timeout`
  is the exhausted budget, `Outcome.abort` a failed `assert`.
* the bitmap module (`bit_map.c`) and the header `buddy_allocator.h` are not
  among the sources; the bitmap is modelled from the specification and the
  constants of the header are parameters.
-/

set_option autoImplicit false

namespace BuddyAlloc

/-! ## Model -/

/-- Result of running a piece of the C code. -/
inductive Outcome (α : Type) where
  | done (a : α) : Outcome α
  | abort : Outcome α
  | timeout : Outcome α
  deriving DecidableEq, Repr

/-- The size of the header word, `sizeof(int)`. -/
def sizeof_int : Nat := 4

/-- The most negative `int`. -/
def INT_MIN : Int := -2147483648

/-- The C expression `1 << k`. -/
def shl1 (k : Int) : Nat := 2 ^ k.toNat

/-- Binary logarithm rounded down, by repeated halving (`budget` halvings). -/
def floorLog2Aux : Nat → Nat → Nat
  | 0, _ => 0
  | budget + 1, x => if x < 2 then 0 else floorLog2Aux budget (x / 2) + 1

/-- The C expression `(int)floor(log2(x))` for an unsigned `x`. -/
def floorLog2 (x : Nat) : Int :=
  if x = 0 then INT_MIN else (floorLog2Aux x x : Nat)

/-- Source: `levelIdx(size_t idx)`. -/
def levelIdx (idx : Nat) : Int := floorLog2 idx + 1

/-- Source: `buddyIdx(int idx)`; `idx & 0x1` is the parity of `idx`. -/
def buddyIdx (idx : Int) : Int :=
  if idx % 2 ≠ 0 then idx - 1 else idx + 1

/-- Source: `parentIdx(int idx)`; C division truncates. -/
def parentIdx (idx : Int) : Int := Int.tdiv idx 2

/-- Source: `startIdx(int idx)`. -/
def startIdx (idx : Int) : Int := idx - shl1 (levelIdx idx.toNat)

/-- Modelled from the spec: the bitmap of `bit_map.c` (absent from the
sources), "a packed array of `num_bits` bits". -/
abbrev BitMap := List Bool

/-- Modelled from the spec: `BitMap_getBytes`, the bits are stored in
`⌈num_bits/8⌉` bytes. -/
def BitMap_getBytes (bits : Int) : Int := (bits + 7) / 8

/-- Modelled from the spec: `BitMap_init` binds `num_bits` bits of the
caller's storage and does not zero them; `storage` is their prior content. -/
def BitMap_init (num_bits : Int) (storage : Nat → Bool) : BitMap :=
  (List.range num_bits.toNat).map storage

/-- Modelled from the spec: `BitMap_bit` reads bit `pos`; a position outside
the array (undefined in the spec) reads as `0`. -/
def BitMap_bit (bm : BitMap) (pos : Int) : Bool :=
  if 0 ≤ pos then bm.getD pos.toNat false else false

/-- Modelled from the spec: `BitMap_setBit` writes bit `pos`; a position
outside the array (undefined in the spec) writes nothing. -/
def BitMap_setBit (bm : BitMap) (pos : Int) (v : Bool) : BitMap :=
  if 0 ≤ pos then bm.set pos.toNat v else bm

/-- Source: `struct BuddyAllocator` (`tree` is the bitmap it points to,
`memory` the base address of the managed region). -/
structure BuddyAllocator where
  num_levels : Int
  memory : Int
  min_bucket_size : Nat
  tree : BitMap
  deriving DecidableEq, Repr

/-- The `int` words stored in the managed region, by byte address. -/
abbrev Heap := Int → Int

/-- Source: `BuddyAllocator_calcSize`; `1<<(num_levels) - 1` parses as
`1 << (num_levels - 1)`.  `sizeofBitMap` is `sizeof(BitMap)`. -/
def BuddyAllocator_calcSize (sizeofBitMap : Int) (num_levels : Int) : Int :=
  let num_bits : Int := shl1 (num_levels - 1)
  BitMap_getBytes num_bits + sizeofBitMap

/-- Source: `BuddyAllocator_init`.  `MAX_LEVELS` and `sizeof(BitMap)` come
from the headers and are parameters; `storage` is the prior content of the
buffer behind the `BitMap` struct. -/
def BuddyAllocator_init (MAX_LEVELS sizeofBitMap : Int) (num_levels : Int)
    (storage : Nat → Bool) (buffer_size : Int) (memory : Int)
    (min_bucket_size : Nat) : Outcome BuddyAllocator :=
  if ¬ num_levels < MAX_LEVELS then .abort
  else if ¬ buffer_size ≥ BuddyAllocator_calcSize sizeofBitMap num_levels then .abort
  else
    let num_bits : Int := (shl1 num_levels : Int) - 1
    let tree := BitMap_init num_bits storage
    let tree := BitMap_setBit tree 0 true
    let tree := (List.range' 1 (num_bits - 1).toNat).foldl
      (fun (t : BitMap) (i : Nat) => BitMap_setBit t (i : Int) false) tree
    .done { num_levels := num_levels, memory := memory,
            min_bucket_size := min_bucket_size, tree := tree }

/-- The scan loop of `BuddyAllocator_getBuddy`: `n` iterations are left, the
loop variable is `i`; the result is the first `i` whose bit is set. -/
def getBuddyScan (tree : BitMap) (idx : Int) : Nat → Int → Option Int
  | 0, _ => none
  | n + 1, i =>
    if BitMap_bit tree (idx + i - 1) = true then some i
    else getBuddyScan tree idx n (i + 1)

/-- Source: `BuddyAllocator_getBuddy`, with a budget of nested calls. -/
def getBuddyAux : Nat → BuddyAllocator → Int → Outcome (Int × BuddyAllocator)
  | 0, _, _ => .timeout
  | budget + 1, alloc, level =>
    if level < 1 then .done (0, alloc)
    else if ¬ level ≤ alloc.num_levels then .abort
    else
      let idx : Int := shl1 (level - 1)
      let num_buddies : Nat := shl1 (level - 1)
      match getBuddyScan alloc.tree idx num_buddies 0 with
      | some i =>
        .done (idx + i, { alloc with tree := BitMap_setBit alloc.tree (idx + i - 1) false })
      | none =>
        match getBuddyAux budget alloc (levelIdx (parentIdx idx).toNat) with
        | .done (r, alloc1) =>
          let ret_idx := r * 2
          if ret_idx = 0 then .done (0, alloc1)
          else
            let buddy_idx := buddyIdx ret_idx
            .done (ret_idx,
              { alloc1 with tree := BitMap_setBit alloc1.tree (buddy_idx - 1) true })
        | .abort => .abort
        | .timeout => .timeout

/-- Source: `BuddyAllocator_getBuddy`; `level + 1` nested calls are enough. -/
def BuddyAllocator_getBuddy (alloc : BuddyAllocator) (level : Int) :
    Outcome (Int × BuddyAllocator) :=
  getBuddyAux (level.toNat + 1) alloc level

/-- The level `BuddyAllocator_malloc` passes to `BuddyAllocator_getBuddy`. -/
def mallocLevel (alloc : BuddyAllocator) (size : Nat) : Int :=
  let mem_size : Nat := shl1 alloc.num_levels * alloc.min_bucket_size
  let level : Int := floorLog2 (mem_size / (size + sizeof_int))
  if level > alloc.num_levels then alloc.num_levels else level

/-- Source: `BuddyAllocator_malloc`.  The result is the returned pointer
(`none` is the null pointer), the allocator and the region afterwards. -/
def BuddyAllocator_malloc (alloc : BuddyAllocator) (heap : Heap) (size : Nat) :
    Outcome (Option Int × BuddyAllocator × Heap) :=
  let level := mallocLevel alloc size
  match BuddyAllocator_getBuddy alloc level with
  | .done (idx, alloc1) =>
    if idx = 0 then .done (none, alloc1, heap)
    else
      let offset : Int := idx - shl1 (level - 1)
      let max_mem : Nat := alloc.min_bucket_size * shl1 (alloc.num_levels - 1)
      let mem : Int := alloc.memory + ((max_mem / shl1 (level - 1) : Nat) : Int) * offset
      .done (some (mem + sizeof_int), alloc1, Function.update heap mem idx)
  | .abort => .abort
  | .timeout => .timeout

/-- Source: `BuddyAllocator_releaseBuddy`, with a budget of nested calls. -/
def releaseBuddyAux : Nat → BuddyAllocator → Int → Outcome BuddyAllocator
  | 0, _, _ => .timeout
  | budget + 1, alloc, idx =>
    let buddy_idx := buddyIdx idx
    if idx ≠ 1 ∧ BitMap_bit alloc.tree (buddy_idx - 1) = true then
      releaseBuddyAux budget
        { alloc with tree := BitMap_setBit alloc.tree (buddy_idx - 1) false }
        (parentIdx idx)
    else
      .done { alloc with tree := BitMap_setBit alloc.tree (idx - 1) true }

/-- Source: `BuddyAllocator_releaseBuddy`; every call halves the index, so
`|idx| + 3` nested calls are enough. -/
def BuddyAllocator_releaseBuddy (alloc : BuddyAllocator) (idx : Int) :
    Outcome BuddyAllocator :=
  releaseBuddyAux (idx.natAbs + 3) alloc idx

/-- Source: `BuddyAllocator_free`. -/
def BuddyAllocator_free (alloc : BuddyAllocator) (heap : Heap) (mem : Int) :
    Outcome BuddyAllocator :=
  let idx := heap (mem - sizeof_int)
  if ¬ idx < shl1 alloc.num_levels then .abort
  else BuddyAllocator_releaseBuddy alloc idx

/-- The bit of tree node `n` (bit `n - 1` of the bitmap). -/
def isFree (t : BitMap) (n : Nat) : Bool := BitMap_bit t ((n : Int) - 1)

/-- The bitmap with the bit of tree node `n` written. -/
def mark (t : BitMap) (n : Nat) (v : Bool) : BitMap := BitMap_setBit t ((n : Int) - 1) v

/-- The relation `Grants t d n t'`: a successful `BuddyAllocator_getBuddy` at
level `d + 1` on bitmap `t` hands out node `n` and leaves bitmap `t'`.  Either
the first set bit of the level is cleared, or the level has no set bit, the
level above grants `p`, and `2p` is handed out while its buddy `2p + 1` is set. -/
inductive Grants (t : BitMap) : Nat → Nat → BitMap → Prop
  | hit (d n : Nat) : 2 ^ d ≤ n → n < 2 ^ (d + 1) → isFree t n = true →
      (∀ m, 2 ^ d ≤ m → m < n → isFree t m = false) → Grants t d n (mark t n false)
  | split (d p : Nat) (t1 : BitMap) :
      (∀ m, 2 ^ (d + 1) ≤ m → m < 2 ^ (d + 2) → isFree t m = false) →
      Grants t d p t1 → Grants t (d + 1) (2 * p) (mark t1 (2 * p + 1) true)

/-- The buddy of tree node `n`, as `buddyIdx` computes it. -/
def buddyNode (n : Nat) : Nat := if n % 2 = 1 then n - 1 else n + 1

/-- The relation `Releases t n t'`: `BuddyAllocator_releaseBuddy` on node `n`
turns bitmap `t` into `t'`.  Either the bit of `n` is set (root, or buddy not
free), or the set bit of the buddy is cleared and the parent is released. -/
inductive Releases : BitMap → Nat → BitMap → Prop
  | stop (t : BitMap) (n : Nat) : (n = 1 ∨ isFree t (buddyNode n) = false) →
      Releases t n (mark t n true)
  | merge (t : BitMap) (n : Nat) (t' : BitMap) : n ≠ 1 → isFree t (buddyNode n) = true →
      Releases (mark t (buddyNode n) false) (n / 2) t' → Releases t n t'

/-- Node `a` is `n` itself or one of its ancestors `n/2, n/4, ...`. -/
def IsAnc (a n : Nat) : Prop := ∃ k, n / 2 ^ k = a

/-- Node `n` is in use as a unit: its bit is set (free block) or it is one of
the allocated nodes `A`. -/
def Occ (t : BitMap) (A : Nat → Prop) (n : Nat) : Prop := isFree t n = true ∨ A n

/-- The tree invariant for a bitmap `t` of an `L`-level allocator whose
allocated nodes are `A`. -/
structure TreeInv (L : Nat) (t : BitMap) (A : Nat → Prop) : Prop where
  length : t.length = 2 ^ L - 1
  range : ∀ n, A n → 1 ≤ n ∧ n < 2 ^ L
  excl : ∀ n, A n → isFree t n = false
  antichain : ∀ n m, Occ t A n → Occ t A m → IsAnc n m → n = m
  cover : ∀ leaf, 2 ^ (L - 1) ≤ leaf → leaf < 2 ^ L → ∃ k, Occ t A (leaf / 2 ^ k)
  nobuddies : ∀ p, ¬ (isFree t (2 * p) = true ∧ isFree t (2 * p + 1) = true)

/-- The size in bytes of a block of level `level`, as `BuddyAllocator_malloc`
computes it: `max_mem / (1 << (level - 1))`. -/
def blockSize (alloc : BuddyAllocator) (level : Int) : Nat :=
  alloc.min_bucket_size * shl1 (alloc.num_levels - 1) / shl1 (level - 1)

/-- The byte offset in the managed region of the block of node `idx` of level
`level`, as `BuddyAllocator_malloc` computes it. -/
def blockOffset (alloc : BuddyAllocator) (level idx : Int) : Int :=
  (blockSize alloc level : Int) * (idx - shl1 (level - 1))

/-- A block handed out by malloc and not freed since: the returned pointer,
the node index and the level of the request. -/
structure Block where
  ptr : Int
  idx : Int
  level : Int
  deriving DecidableEq, Repr

/-- The relation `Reach a0 h0 a h live`: from allocator `a0` and region `h0` an
admissible sequence of calls leads to allocator `a` and region `h` with the blocks `live`
outstanding.  A free is applied to the pointer of an outstanding block; between
calls the caller may write to the region but not to the header word of an
outstanding block. -/
inductive Reach (a0 : BuddyAllocator) (h0 : Heap) : BuddyAllocator → Heap → List Block → Prop
  | init : Reach a0 h0 a0 h0 []
  | malloc_some {a : BuddyAllocator} {h : Heap} {live : List Block} (size : Nat) (p idx : Int)
      (a' : BuddyAllocator) (h' : Heap) :
      Reach a0 h0 a h live →
      BuddyAllocator_getBuddy a (mallocLevel a size) = .done (idx, a') →
      BuddyAllocator_malloc a h size = .done (some p, a', h') →
      Reach a0 h0 a' h' (⟨p, idx, mallocLevel a size⟩ :: live)
  | malloc_null {a : BuddyAllocator} {h : Heap} {live : List Block} (size : Nat)
      (a' : BuddyAllocator) (h' : Heap) :
      Reach a0 h0 a h live →
      BuddyAllocator_malloc a h size = .done (none, a', h') →
      Reach a0 h0 a' h' live
  | free {a : BuddyAllocator} {h : Heap} {live : List Block} (p : Int) (a' : BuddyAllocator) :
      Reach a0 h0 a h live →
      (∃ b ∈ live, b.ptr = p) →
      BuddyAllocator_free a h p = .done a' →
      Reach a0 h0 a' h (live.filter (fun b => decide (b.ptr ≠ p)))
  | write {a : BuddyAllocator} {h : Heap} {live : List Block} (h' : Heap) :
      Reach a0 h0 a h live →
      (∀ b ∈ live, h' (b.ptr - sizeof_int) = h (b.ptr - sizeof_int)) →
      Reach a0 h0 a h' live

/-- The invariant of the reachable states of an `L`-level allocator. -/
structure SysInv (L : Nat) (a0 a : BuddyAllocator) (h : Heap) (live : List Block) : Prop where
  levels : a.num_levels = (L : Int)
  memory : a.memory = a0.memory
  bucket : a.min_bucket_size = a0.min_bucket_size
  tree : TreeInv L a.tree (fun n => ∃ b ∈ live, b.idx = (n : Int))
  header : ∀ b ∈ live, h (b.ptr - sizeof_int) = b.idx
  place : ∀ b ∈ live, ∃ d n : Nat, b.level = (d : Int) + 1 ∧ d + 1 ≤ L ∧ b.idx = (n : Int) ∧
    2 ^ d ≤ n ∧ n < 2 ^ (d + 1) ∧
    b.ptr = a.memory + blockOffset a b.level b.idx + sizeof_int
  distinct : ∀ b ∈ live, ∀ c ∈ live, b.idx = c.idx → b = c
  nodup : live.Nodup
  bucket_pos : live ≠ [] → 0 < a.min_bucket_size

/-- A concrete allocator used to instantiate the theorems: 4 levels, buckets
of 16 bytes, region at address 1000, as `BuddyAllocator_init` leaves it. -/
def sampleAlloc : BuddyAllocator := ⟨4, 1000, 16, true :: List.replicate 14 false⟩

/-- The managed region of `sampleAlloc` before any call. -/
def sampleHeap : Heap := fun _ => 0

/-- The allocator `sampleAlloc` after `malloc(28)` twice (nodes 4 and 5 of
level 3). -/
def sampleAlloc2 : BuddyAllocator :=
  ⟨4, 1000, 16, [false, false, true, false, false, false, false, false, false, false, false,
    false, false, false, false]⟩

/-- The region after the two calls: the header words of the two blocks. -/
def sampleHeap2 : Heap := Function.update (Function.update sampleHeap 1000 4) 1032 5

/-- The two blocks outstanding after the two calls. -/
def sampleLive2 : List Block := [⟨1036, 5, 3⟩, ⟨1004, 4, 3⟩]
/-! ## Arithmetic of levels -/

theorem floorLog2Aux_eq_log (budget x : Nat) (h : x ≤ budget) :
    floorLog2Aux budget x = Nat.log 2 x := by
  induction budget generalizing x with
  | zero =>
    have : x = 0 := by omega
    subst this
    simp [floorLog2Aux]
  | succ b ih =>
    unfold floorLog2Aux
    split_ifs with hx
    · exact (Nat.log_of_lt hx).symm
    · have h2 : 2 ≤ x := by omega
      rw [Nat.log_of_one_lt_of_le (by decide) h2, ih (x / 2) (by omega)]

theorem floorLog2_of_pos (x : Nat) (h : x ≠ 0) : floorLog2 x = (Nat.log 2 x : Nat) := by
  simp [floorLog2, h, floorLog2Aux_eq_log]

theorem floorLog2_zero : floorLog2 0 = INT_MIN := by
  simp [floorLog2]

theorem shl1_pos (k : Int) : 0 < shl1 k := by
  unfold shl1; positivity

theorem shl1_succ (k : Int) (h : 0 ≤ k) : shl1 (k + 1) = 2 * shl1 k := by
  unfold shl1
  have : (k + 1).toNat = k.toNat + 1 := by omega
  rw [this, pow_succ]; ring

theorem shl1_zero : shl1 0 = 1 := by simp [shl1]

theorem shl1_natCast (k : Nat) : shl1 (k : Int) = 2 ^ k := by simp [shl1]

theorem shl1_pred (k : Int) (h : 1 ≤ k) : shl1 k = 2 * shl1 (k - 1) := by
  have := shl1_succ (k - 1) (by omega)
  simpa using this

/-- The level computed by the code, in closed form. -/
theorem mallocLevel_eq (alloc : BuddyAllocator) (size : Nat)
    (hq : shl1 alloc.num_levels * alloc.min_bucket_size / (size + sizeof_int) ≠ 0) :
    mallocLevel alloc size = min alloc.num_levels
      ((Nat.log 2 (shl1 alloc.num_levels * alloc.min_bucket_size / (size + sizeof_int)) : Nat) : Int) := by
  unfold mallocLevel
  simp only [floorLog2_of_pos _ hq]
  rw [min_def]
  split_ifs <;> omega

theorem isFree_eq (t : BitMap) (n : Nat) :
    isFree t n = (decide (1 ≤ n) && t.getD (n - 1) false) := by
  unfold isFree BitMap_bit
  by_cases h : 1 ≤ n
  · have h1 : (0 : Int) ≤ (n : Int) - 1 := by omega
    have h2 : ((n : Int) - 1).toNat = n - 1 := by omega
    simp [h, h1, h2]
  · have h1 : ¬ (0 : Int) ≤ (n : Int) - 1 := by omega
    simp [h, h1]

theorem mark_eq (t : BitMap) (n : Nat) (v : Bool) :
    mark t n v = if 1 ≤ n then t.set (n - 1) v else t := by
  unfold mark BitMap_setBit
  by_cases h : 1 ≤ n
  · have h1 : (0 : Int) ≤ (n : Int) - 1 := by omega
    have h2 : ((n : Int) - 1).toNat = n - 1 := by omega
    simp [h, h1, h2]
  · have h1 : ¬ (0 : Int) ≤ (n : Int) - 1 := by omega
    simp [h, h1]

theorem length_mark (t : BitMap) (n : Nat) (v : Bool) : (mark t n v).length = t.length := by
  rw [mark_eq]; split_ifs <;> simp

theorem isFree_range (t : BitMap) (n : Nat) (h : isFree t n = true) :
    1 ≤ n ∧ n ≤ t.length := by
  rw [isFree_eq] at h
  simp only [Bool.and_eq_true, decide_eq_true_eq] at h
  refine ⟨h.1, ?_⟩
  by_contra hc
  have : t.length ≤ n - 1 := by omega
  rw [List.getD_eq_getElem?_getD, List.getElem?_eq_none this] at h
  simp at h

theorem isFree_mark (t : BitMap) (n m : Nat) (v : Bool) :
    isFree (mark t n v) m = if n = m ∧ 1 ≤ n ∧ n ≤ t.length then v else isFree t m := by
  rw [isFree_eq, isFree_eq, mark_eq]
  by_cases hn : 1 ≤ n
  · simp only [hn, if_true, List.getD_eq_getElem?_getD, List.getElem?_set]
    by_cases hm : 1 ≤ m
    · by_cases hnm : n = m
      · subst hnm
        by_cases hl : n ≤ t.length
        · have : n - 1 < t.length := by omega
          simp [hn, hl, this]
        · have h1 : ¬ n - 1 < t.length := by omega
          have h2 : t.length ≤ n - 1 := by omega
          simp [hn, hl, h1, List.getElem?_eq_none h2]
      · have : ¬ n - 1 = m - 1 := by omega
        simp [hnm, this]
    · have : ¬ n = m := by omega
      simp [hm, this]
  · have : ¬ (n = m ∧ 1 ≤ n ∧ n ≤ t.length) := by omega
    simp [hn, this]

theorem isFree_mark_self (t : BitMap) (n : Nat) (v : Bool) (h1 : 1 ≤ n) (h2 : n ≤ t.length) :
    isFree (mark t n v) n = v := by
  rw [isFree_mark]; simp [h1, h2]

theorem isFree_mark_ne (t : BitMap) (n m : Nat) (v : Bool) (h : n ≠ m) :
    isFree (mark t n v) m = isFree t m := by
  rw [isFree_mark]; simp [h]

/-- Two bitmaps of the same length with the same bit on every node are equal. -/
theorem bitmap_ext (t t' : BitMap) (hl : t.length = t'.length)
    (h : ∀ n, isFree t n = isFree t' n) : t = t' := by
  apply List.ext_getElem hl
  intro i h1 h2
  have := h (i + 1)
  rw [isFree_eq, isFree_eq] at this
  simpa [List.getD_eq_getElem?_getD, List.getElem?_eq_getElem h1,
    List.getElem?_eq_getElem h2] using this

/-! ## What getBuddy does -/

theorem getBuddyScan_spec (t : BitMap) (s : Nat) (n i : Nat) :
    (∃ k : Nat, getBuddyScan t (s : Int) n (i : Int) = some (k : Int) ∧ i ≤ k ∧ k < i + n ∧
        isFree t (s + k) = true ∧ ∀ m, i ≤ m → m < k → isFree t (s + m) = false)
    ∨ (getBuddyScan t (s : Int) n (i : Int) = none ∧
        ∀ m, i ≤ m → m < i + n → isFree t (s + m) = false) := by
  induction n generalizing i with
  | zero =>
    right
    refine ⟨rfl, ?_⟩
    intro m h1 h2; omega
  | succ n ih =>
    unfold getBuddyScan
    have hbit : BitMap_bit t ((s : Int) + (i : Int) - 1) = isFree t (s + i) := by
      unfold isFree; push_cast; rfl
    rw [hbit]
    by_cases hf : isFree t (s + i) = true
    · left
      refine ⟨i, by simp [hf], le_refl _, by omega, hf, ?_⟩
      intro m h1 h2; omega
    · simp only [hf, if_false]
      have hcast : ((i : Int) + 1) = ((i + 1 : Nat) : Int) := by push_cast; ring
      rw [hcast]
      rcases ih (i + 1) with ⟨k, hk, h1, h2, h3, h4⟩ | ⟨hk, h1⟩
      · left
        refine ⟨k, hk, by omega, by omega, h3, ?_⟩
        intro m hm1 hm2
        by_cases hmi : m = i
        · subst hmi; simpa using hf
        · exact h4 m (by omega) hm2
      · right
        refine ⟨hk, ?_⟩
        intro m hm1 hm2
        by_cases hmi : m = i
        · subst hmi; simpa using hf
        · exact h1 m (by omega) (by omega)

theorem levelIdx_zero : levelIdx 0 = INT_MIN + 1 := by
  simp [levelIdx, floorLog2]

theorem levelIdx_pow (d : Nat) : levelIdx (2 ^ d) = (d : Int) + 1 := by
  have h : (2 : Nat) ^ d ≠ 0 := by positivity
  simp [levelIdx, floorLog2_of_pos _ h, Nat.log_pow]

theorem parentIdx_natCast (n : Nat) : parentIdx (n : Int) = ((n / 2 : Nat) : Int) := by
  unfold parentIdx
  rw [Int.tdiv_eq_ediv (by omega) (by decide)]
  simp

theorem buddyIdx_natCast (n : Nat) :
    buddyIdx (n : Int) = if n % 2 = 1 then ((n - 1 : Nat) : Int) else ((n + 1 : Nat) : Int) := by
  unfold buddyIdx
  split_ifs with h1 h2 h2 <;> omega

/-- The level of the recursive call made by getBuddy at level `d + 1`. -/
theorem getBuddy_rec_level (d : Nat) :
    levelIdx (parentIdx ((shl1 ((d : Int) + 1 - 1) : Nat) : Int)).toNat
      = if d = 0 then INT_MIN + 1 else (d : Int) := by
  have h0 : ((d : Int) + 1 - 1) = (d : Int) := by ring
  rw [h0, shl1_natCast, parentIdx_natCast, Int.toNat_ofNat]
  cases d with
  | zero => simp [levelIdx_zero]
  | succ e =>
    have : (2 : Nat) ^ (e + 1) / 2 = 2 ^ e := by
      rw [pow_succ]; omega
    rw [this, levelIdx_pow]
    simp

/-- A granted node lies on the level that was asked for. -/
theorem Grants.level {t t' : BitMap} {d n : Nat} (h : Grants t d n t') :
    2 ^ d ≤ n ∧ n < 2 ^ (d + 1) := by
  induction h with
  | hit d n h1 h2 _ _ => exact ⟨h1, h2⟩
  | split d p t1 _ _ ih =>
    constructor
    · rw [pow_succ]; omega
    · rw [pow_succ 2 (d + 1)]; omega

theorem Grants.length_eq {t t' : BitMap} {d n : Nat} (h : Grants t d n t') :
    t'.length = t.length := by
  induction h with
  | hit d n _ _ _ _ => exact length_mark _ _ _
  | split d p t1 _ _ ih => rw [length_mark, ih]

/-- Total description of getBuddy at a level `1 ≤ d + 1 ≤ num_levels`: either
no node of levels `1 .. d + 1` has its bit set and the call returns `0` on an
unchanged allocator, or it returns a granted node as described by `Grants`. -/
theorem getBuddyAux_spec (d : Nat) (alloc : BuddyAllocator) (budget : Nat)
    (hL : (d : Int) + 1 ≤ alloc.num_levels) (hb : d + 2 ≤ budget) :
    (getBuddyAux budget alloc ((d : Int) + 1) = .done (0, alloc) ∧
        ∀ m, 1 ≤ m → m < 2 ^ (d + 1) → isFree alloc.tree m = false)
    ∨ ∃ n t', Grants alloc.tree d n t' ∧
        getBuddyAux budget alloc ((d : Int) + 1) = .done ((n : Int), { alloc with tree := t' }) := by
  induction d generalizing budget with
  | zero =>
    obtain ⟨b, rfl⟩ : ∃ b, budget = b + 2 := ⟨budget - 2, by omega⟩
    unfold getBuddyAux
    have hl1 : ¬ ((0 : Nat) : Int) + 1 < 1 := by omega
    simp only [hl1, if_false, hL, not_true_eq_false]
    have hs : shl1 (((0 : Nat) : Int) + 1 - 1) = 1 := by simp [shl1]
    rcases getBuddyScan_spec alloc.tree 1 1 0 with ⟨k, hk, h1, h2, h3, h4⟩ | ⟨hk, h1⟩
    · right
      have hk0 : k = 0 := by omega
      subst hk0
      refine ⟨1, mark alloc.tree 1 false, ?_, ?_⟩
      · exact Grants.hit 0 1 (by simp) (by simp) (by simpa using h3) (by intro m h5 h6; simp at h5; omega)
      · rw [hs]
        simp only [Nat.cast_one, Nat.cast_zero] at hk ⊢
        rw [hk]
        simp [mark]
    · left
      rw [hs]
      simp only [Nat.cast_one, Nat.cast_zero] at hk ⊢
      rw [hk]
      have hr := getBuddy_rec_level 0
      simp only [Nat.cast_zero, zero_add, sub_self, if_true] at hr
      have hs' : shl1 0 = 1 := by simp [shl1]
      rw [hs'] at hr
      simp only [Nat.cast_one] at hr
      simp only [hr]
      unfold getBuddyAux
      have : INT_MIN + 1 < 1 := by decide
      simp only [this, if_true]
      refine ⟨by simp, ?_⟩
      intro m hm1 hm2
      have : m = 1 := by simp at hm2; omega
      subst this
      simpa using h1 0 (le_refl _) (by omega)
  | succ e ih =>
    obtain ⟨b, rfl⟩ : ∃ b, budget = b + 1 := ⟨budget - 1, by omega⟩
    have hLe : (e : Int) + 1 ≤ alloc.num_levels := by push_cast at hL; omega
    unfold getBuddyAux
    have hl1 : ¬ ((e + 1 : Nat) : Int) + 1 < 1 := by omega
    simp only [hl1, if_false, hL, not_true_eq_false]
    have hr := getBuddy_rec_level (e + 1)
    simp only [Nat.succ_ne_zero, if_false] at hr
    have hs : shl1 (((e + 1 : Nat) : Int) + 1 - 1) = 2 ^ (e + 1) := by
      have : ((e + 1 : Nat) : Int) + 1 - 1 = ((e + 1 : Nat) : Int) := by ring
      rw [this, shl1_natCast]
    rw [hs] at hr ⊢
    rcases getBuddyScan_spec alloc.tree (2 ^ (e + 1)) (2 ^ (e + 1)) 0 with
      ⟨k, hk, h1, h2, h3, h4⟩ | ⟨hk, h1⟩
    · right
      refine ⟨2 ^ (e + 1) + k, mark alloc.tree (2 ^ (e + 1) + k) false, ?_, ?_⟩
      · refine Grants.hit (e + 1) _ (by omega) (by rw [pow_succ 2 (e + 1)]; omega) h3 ?_
        intro m hm1 hm2
        have := h4 (m - 2 ^ (e + 1)) (by omega) (by omega)
        rwa [Nat.add_sub_cancel' hm1] at this
      · simp only [Nat.cast_zero] at hk
        rw [hk]
        simp only [mark]
        push_cast
        rfl
    · simp only [Nat.cast_zero] at hk
      rw [hk]
      simp only [hr]
      have hnone : ∀ m, 2 ^ (e + 1) ≤ m → m < 2 ^ (e + 2) → isFree alloc.tree m = false := by
        intro m hm1 hm2
        have := h1 (m - 2 ^ (e + 1)) (by omega) (by rw [pow_succ 2 (e + 1)] at hm2; omega)
        rwa [Nat.add_sub_cancel' hm1] at this
      have hcast : ((e + 1 : Nat) : Int) = (e : Int) + 1 := by push_cast; ring
      rw [hcast]
      rcases ih b hLe (by omega) with ⟨hz, hno⟩ | ⟨p, t1, hg, hp⟩
      · left
        rw [hz]
        refine ⟨by simp, ?_⟩
        intro m hm1 hm2
        by_cases hm : m < 2 ^ (e + 1)
        · exact hno m hm1 hm
        · exact hnone m (by omega) hm2
      · right
        refine ⟨2 * p, mark t1 (2 * p + 1) true, Grants.split e p t1 hnone hg, ?_⟩
        rw [hp]
        have hp1 : 1 ≤ p := le_trans Nat.one_le_two_pow hg.level.1
        have hne : ¬ ((p : Int) * 2 = 0) := by omega
        have hb2 : buddyIdx ((p : Int) * 2) - 1 = ((2 * p + 1 : Nat) : Int) - 1 := by
          unfold buddyIdx
          have : ((p : Int) * 2) % 2 = 0 := by omega
          simp only [this, ne_eq, not_true_eq_false, if_false]
          push_cast; ring
        simp only [hne, if_false, hb2, mark]
        push_cast
        congr 2
        ring

/-! ## What releaseBuddy does -/

theorem buddyIdx_eq_buddyNode (n : Nat) (_h : 1 ≤ n) :
    buddyIdx (n : Int) = (buddyNode n : Nat) := by
  rw [buddyIdx_natCast]
  unfold buddyNode
  split_ifs <;> rfl

/-- Total description of releaseBuddy on a node `n ≥ 1`: it returns, after at
most `⌊log₂ n⌋ + 1` nested calls, with the bitmap described by `Releases`. -/
theorem releaseBuddyAux_spec (n : Nat) (alloc : BuddyAllocator) (budget : Nat)
    (hn : 1 ≤ n) (hb : Nat.log 2 n + 1 ≤ budget) :
    ∃ t', Releases alloc.tree n t' ∧
      releaseBuddyAux budget alloc (n : Int) = .done { alloc with tree := t' } := by
  induction budget generalizing n alloc with
  | zero => omega
  | succ b ih =>
    unfold releaseBuddyAux
    simp only [buddyIdx_eq_buddyNode n hn]
    have hbit : BitMap_bit alloc.tree (((buddyNode n : Nat) : Int) - 1) = isFree alloc.tree (buddyNode n) := rfl
    have hset : ∀ v, BitMap_setBit alloc.tree (((buddyNode n : Nat) : Int) - 1) v
        = mark alloc.tree (buddyNode n) v := fun _ => rfl
    have hset2 : ∀ v, BitMap_setBit alloc.tree ((n : Int) - 1) v = mark alloc.tree n v := fun _ => rfl
    rw [hbit, hset, hset2]
    by_cases hc : (n : Int) ≠ 1 ∧ isFree alloc.tree (buddyNode n) = true
    · rw [if_pos hc]
      have hn1 : n ≠ 1 := by
        intro h; apply hc.1; simp [h]
      have h2 : 2 ≤ n := by omega
      have hlog : Nat.log 2 (n / 2) + 1 ≤ b := by
        have := Nat.log_of_one_lt_of_le (by decide : 1 < 2) h2
        omega
      rw [parentIdx_natCast]
      obtain ⟨t', hr, he⟩ := ih (n / 2)
        { alloc with tree := mark alloc.tree (buddyNode n) false } (by omega) hlog
      exact ⟨t', Releases.merge _ _ _ hn1 hc.2 hr, he⟩
    · rw [if_neg hc]
      refine ⟨_, Releases.stop _ _ ?_, rfl⟩
      by_cases h1 : n = 1
      · exact Or.inl h1
      · right
        have : (n : Int) ≠ 1 := by
          intro h; apply h1; exact_mod_cast h
        simpa [this] using hc

theorem Releases.length_same {t t' : BitMap} {n : Nat} (h : Releases t n t') :
    t'.length = t.length := by
  induction h with
  | stop t n _ => exact length_mark _ _ _
  | merge t n t' _ _ _ ih => rw [ih, length_mark]

/-! ## Ancestors -/

theorem IsAnc.refl (n : Nat) : IsAnc n n := ⟨0, by simp⟩

theorem IsAnc.le {a n : Nat} (h : IsAnc a n) : a ≤ n := by
  obtain ⟨k, rfl⟩ := h
  exact Nat.div_le_self _ _

theorem div_pow_succ (n k : Nat) : n / 2 ^ (k + 1) = n / 2 / 2 ^ k := by
  rw [Nat.div_div_eq_div_mul, pow_succ, Nat.mul_comm]

theorem div_pow_succ' (n k : Nat) : n / 2 ^ (k + 1) = n / 2 ^ k / 2 := by
  rw [Nat.div_div_eq_div_mul, pow_succ]

theorem IsAnc.of_half {a n : Nat} (h : IsAnc a (n / 2)) : IsAnc a n := by
  obtain ⟨k, hk⟩ := h
  exact ⟨k + 1, by rw [div_pow_succ, hk]⟩

theorem IsAnc.half {a n : Nat} (h : IsAnc a n) : IsAnc (a / 2) n := by
  obtain ⟨k, hk⟩ := h
  exact ⟨k + 1, by rw [div_pow_succ', hk]⟩

theorem IsAnc.cases_half {a n : Nat} (h : IsAnc a n) : a = n ∨ IsAnc a (n / 2) := by
  obtain ⟨k, hk⟩ := h
  cases k with
  | zero => left; simpa using hk.symm
  | succ j => right; exact ⟨j, by rw [← div_pow_succ, hk]⟩

/-- A proper descendant of `p` lies below one of the children of `p`. -/
theorem IsAnc.cases_child {p n : Nat} (h : IsAnc p n) :
    p = n ∨ IsAnc (2 * p) n ∨ IsAnc (2 * p + 1) n := by
  obtain ⟨k, hk⟩ := h
  cases k with
  | zero => left; simpa using hk.symm
  | succ j =>
    right
    rw [div_pow_succ'] at hk
    have : n / 2 ^ j = 2 * p ∨ n / 2 ^ j = 2 * p + 1 := by omega
    rcases this with h | h
    · exact Or.inl ⟨j, h⟩
    · exact Or.inr ⟨j, h⟩

theorem IsAnc.trans {a b n : Nat} (h1 : IsAnc a b) (h2 : IsAnc b n) : IsAnc a n := by
  obtain ⟨j, hj⟩ := h1
  obtain ⟨k, hk⟩ := h2
  exact ⟨k + j, by rw [pow_add, ← Nat.div_div_eq_div_mul, hk, hj]⟩

/-- Two ancestors of one node are comparable. -/
theorem IsAnc.comparable {a b n : Nat} (h1 : IsAnc a n) (h2 : IsAnc b n) :
    IsAnc a b ∨ IsAnc b a := by
  obtain ⟨j, hj⟩ := h1
  obtain ⟨k, hk⟩ := h2
  by_cases h : j ≤ k
  · right
    refine ⟨k - j, ?_⟩
    rw [← hj, Nat.div_div_eq_div_mul, ← pow_add, Nat.add_sub_cancel' h, hk]
  · left
    refine ⟨j - k, ?_⟩
    rw [← hk, Nat.div_div_eq_div_mul, ← pow_add, Nat.add_sub_cancel' (by omega), hj]

theorem isAnc_double (p : Nat) : IsAnc p (2 * p) := ⟨1, by simp⟩

theorem isAnc_double_succ (p : Nat) : IsAnc p (2 * p + 1) := ⟨1, by simp; omega⟩

/-! ## The tree invariant is kept by getBuddy and releaseBuddy -/

theorem isFree_mark_false_imp (t : BitMap) (n m : Nat) (h : isFree (mark t n false) m = true) :
    isFree t m = true := by
  rw [isFree_mark] at h
  split_ifs at h
  exact h

theorem TreeInv.not_occ_child {L : Nat} {t : BitMap} {A : Nat → Prop} (hi : TreeInv L t A)
    {p : Nat} (hp : 1 ≤ p) (ho : Occ t A p) : ¬ Occ t A (2 * p) ∧ ¬ Occ t A (2 * p + 1) := by
  constructor
  · intro h
    have := hi.antichain p (2 * p) ho h (isAnc_double p)
    omega
  · intro h
    have := hi.antichain p (2 * p + 1) ho h (isAnc_double_succ p)
    omega

theorem TreeInv.not_occ_parent {L : Nat} {t : BitMap} {A : Nat → Prop} (hi : TreeInv L t A)
    {n : Nat} (hn : 1 ≤ n) (ho : Occ t A n) : ¬ Occ t A (n / 2) := by
  intro h
  have := hi.antichain (n / 2) n h ho ⟨1, by simp⟩
  omega

/-- A successful getBuddy moves the tree invariant to the allocated set
extended by the granted node, which was not allocated before. -/
theorem TreeInv.grant {L d n : Nat} {t t' : BitMap} {A : Nat → Prop}
    (hg : Grants t d n t') (hd : d + 1 ≤ L) (hi : TreeInv L t A) :
    ¬ A n ∧ TreeInv L t' (fun m => A m ∨ m = n) := by
  induction hg with
  | hit d n h1 h2 hf _ =>
    have hpow : 2 ^ (d + 1) ≤ 2 ^ L := Nat.pow_le_pow_right (by decide) hd
    have hn1 : 1 ≤ n := le_trans Nat.one_le_two_pow h1
    have hnA : ¬ A n := by
      intro hA
      have := hi.excl n hA
      rw [hf] at this; exact absurd this (by decide)
    have hlen : n ≤ t.length := by rw [hi.length]; omega
    have hocc : ∀ m, Occ (mark t n false) (fun m => A m ∨ m = n) m ↔ Occ t A m := by
      intro m
      unfold Occ
      by_cases hm : m = n
      · subst hm
        simp [hf]
      · rw [isFree_mark_ne _ _ _ _ (Ne.symm hm)]
        simp [hm]
    refine ⟨hnA, ?_, ?_, ?_, ?_, ?_, ?_⟩
    · rw [length_mark, hi.length]
    · rintro m (hm | rfl)
      · exact hi.range m hm
      · exact ⟨hn1, by omega⟩
    · rintro m (hm | rfl)
      · rw [isFree_mark]
        split_ifs
        · rfl
        · exact hi.excl m hm
      · exact isFree_mark_self _ _ _ hn1 hlen
    · intro x y hx hy hxy
      exact hi.antichain x y ((hocc x).1 hx) ((hocc y).1 hy) hxy
    · intro leaf hl1 hl2
      obtain ⟨k, hk⟩ := hi.cover leaf hl1 hl2
      exact ⟨k, (hocc _).2 hk⟩
    · rintro q ⟨hq1, hq2⟩
      exact hi.nobuddies q ⟨isFree_mark_false_imp _ _ _ hq1, isFree_mark_false_imp _ _ _ hq2⟩
  | split d p t1 _ hg ih =>
    obtain ⟨hnp, inv1⟩ := ih (by omega)
    have hpow : 2 ^ (d + 2) ≤ 2 ^ L := Nat.pow_le_pow_right (by decide) hd
    obtain ⟨hp1, hp2⟩ := hg.level
    have hp0 : 1 ≤ p := le_trans Nat.one_le_two_pow hp1
    have h2p : 2 * p + 1 < 2 ^ (d + 2) := by rw [pow_succ 2 (d + 1)]; omega
    have hlen : 2 * p + 1 ≤ t1.length := by rw [inv1.length]; omega
    have occ_p : Occ t1 (fun m => A m ∨ m = p) p := Or.inr (Or.inr rfl)
    obtain ⟨no2p, no2p1⟩ := inv1.not_occ_child hp0 occ_p
    have pfree : isFree t1 p = false := inv1.excl p (Or.inr rfl)
    have hfree' : ∀ m, isFree (mark t1 (2 * p + 1) true) m = true ↔
        (m = 2 * p + 1 ∨ isFree t1 m = true) := by
      intro m
      rw [isFree_mark]
      by_cases hm : 2 * p + 1 = m
      · subst hm; simp [hlen]
      · have : ¬ m = 2 * p + 1 := fun h => hm h.symm
        simp [hm, this]
    have hocc : ∀ m, Occ (mark t1 (2 * p + 1) true) (fun m => A m ∨ m = 2 * p) m ↔
        ((Occ t1 (fun m => A m ∨ m = p) m ∧ m ≠ p) ∨ m = 2 * p ∨ m = 2 * p + 1) := by
      intro m
      unfold Occ
      rw [hfree']
      constructor
      · rintro ((h | h) | h | h)
        · exact Or.inr (Or.inr h)
        · refine Or.inl ⟨Or.inl h, ?_⟩
          rintro rfl
          rw [pfree] at h; exact absurd h (by decide)
        · refine Or.inl ⟨Or.inr (Or.inl h), ?_⟩
          rintro rfl
          exact hnp h
        · exact Or.inr (Or.inl h)
      · rintro (⟨h | h | h, hne⟩ | h | h)
        · exact Or.inl (Or.inr h)
        · exact Or.inr (Or.inl h)
        · exact absurd h hne
        · exact Or.inr (Or.inr h)
        · exact Or.inl (Or.inl h)
    have hhalf1 : 2 * p / 2 = p := by omega
    have hhalf2 : (2 * p + 1) / 2 = p := by omega
    refine ⟨fun h => no2p (Or.inr (Or.inl h)), ?_, ?_, ?_, ?_, ?_, ?_⟩
    · rw [length_mark, inv1.length]
    · rintro m (hm | rfl)
      · exact inv1.range m (Or.inl hm)
      · exact ⟨by omega, by omega⟩
    · intro m hm
      cases hfm : isFree (mark t1 (2 * p + 1) true) m with
      | false => rfl
      | true =>
        exfalso
        rcases (hfree' m).1 hfm with h | h
        · subst h
          rcases hm with hm | hm
          · exact no2p1 (Or.inr (Or.inl hm))
          · omega
        · rcases hm with hm | hm
          · have := inv1.excl m (Or.inl hm)
            rw [h] at this; exact absurd this (by decide)
          · subst hm
            exact no2p (Or.inl h)
    · intro x y hx hy hxy
      rcases (hocc x).1 hx with ⟨hx1, hx2⟩ | hx1 | hx1 <;>
        rcases (hocc y).1 hy with ⟨hy1, hy2⟩ | hy1 | hy1
      · exact inv1.antichain x y hx1 hy1 hxy
      · subst hy1
        rcases hxy.cases_half with h | h
        · subst h; exact absurd hx1 no2p
        · rw [hhalf1] at h
          exact absurd (inv1.antichain x p hx1 occ_p h) hx2
      · subst hy1
        rcases hxy.cases_half with h | h
        · subst h; exact absurd hx1 no2p1
        · rw [hhalf2] at h
          exact absurd (inv1.antichain x p hx1 occ_p h) hx2
      · subst hx1
        have := hxy.half
        rw [hhalf1] at this
        exact absurd (inv1.antichain p y occ_p hy1 this).symm hy2
      · rw [hx1, hy1]
      · subst hx1 hy1
        rcases hxy.cases_half with h | h
        · omega
        · rw [hhalf2] at h
          have := h.le
          omega
      · subst hx1
        have := hxy.half
        rw [hhalf2] at this
        exact absurd (inv1.antichain p y occ_p hy1 this).symm hy2
      · subst hx1 hy1
        have := hxy.le
        omega
      · rw [hx1, hy1]
    · intro leaf hl1 hl2
      obtain ⟨k, hk⟩ := inv1.cover leaf hl1 hl2
      by_cases hkp : leaf / 2 ^ k = p
      · have hleaf : 2 ^ (d + 1) ≤ leaf :=
          le_trans (Nat.pow_le_pow_right (by decide) (by omega)) hl1
        cases k with
        | zero =>
          simp at hkp
          omega
        | succ j =>
          rw [div_pow_succ'] at hkp
          refine ⟨j, (hocc _).2 (Or.inr ?_)⟩
          omega
      · exact ⟨k, (hocc _).2 (Or.inl ⟨hk, hkp⟩)⟩
    · rintro q ⟨hq1, hq2⟩
      rcases (hfree' _).1 hq1 with h1 | h1
      · omega
      · rcases (hfree' _).1 hq2 with h2 | h2
        · have : q = p := by omega
          subst this
          exact no2p (Or.inl h1)
        · exact inv1.nobuddies q ⟨h1, h2⟩

theorem isFree_zero (t : BitMap) : isFree t 0 = false := by
  cases h : isFree t 0 with
  | false => rfl
  | true => have := (isFree_range t 0 h).1; omega

theorem buddyNode_cases (n : Nat) (hn : 2 ≤ n) :
    (n = 2 * (n / 2) ∧ buddyNode n = 2 * (n / 2) + 1) ∨
    (n = 2 * (n / 2) + 1 ∧ buddyNode n = 2 * (n / 2)) := by
  unfold buddyNode
  split_ifs <;> omega

/-- Releasing an allocated node moves the tree invariant to the allocated
set without that node. -/
theorem TreeInv.release {L n : Nat} {t t' : BitMap} {A : Nat → Prop}
    (hr : Releases t n t') (hi : TreeInv L t A) (hA : A n) :
    TreeInv L t' (fun m => A m ∧ m ≠ n) := by
  induction hr generalizing A with
  | stop t n h =>
    obtain ⟨hn1, hn2⟩ := hi.range n hA
    have hlen : n ≤ t.length := by rw [hi.length]; omega
    have hfree' : ∀ m, isFree (mark t n true) m = true ↔ (m = n ∨ isFree t m = true) := by
      intro m
      rw [isFree_mark]
      by_cases hm : n = m
      · subst hm; simp [hlen, hn1]
      · have : ¬ m = n := fun h => hm h.symm
        simp [hm, this]
    have hocc : ∀ m, Occ (mark t n true) (fun m => A m ∧ m ≠ n) m ↔ Occ t A m := by
      intro m
      unfold Occ
      rw [hfree']
      constructor
      · rintro ((h | h) | h)
        · subst h; exact Or.inr hA
        · exact Or.inl h
        · exact Or.inr h.1
      · rintro (h | h)
        · exact Or.inl (Or.inr h)
        · by_cases hm : m = n
          · exact Or.inl (Or.inl hm)
          · exact Or.inr ⟨h, hm⟩
    refine ⟨?_, ?_, ?_, ?_, ?_, ?_⟩
    · rw [length_mark, hi.length]
    · intro m hm
      exact hi.range m hm.1
    · intro m hm
      rw [isFree_mark_ne _ _ _ _ (Ne.symm hm.2)]
      exact hi.excl m hm.1
    · intro x y hx hy hxy
      exact hi.antichain x y ((hocc x).1 hx) ((hocc y).1 hy) hxy
    · intro leaf hl1 hl2
      obtain ⟨k, hk⟩ := hi.cover leaf hl1 hl2
      exact ⟨k, (hocc _).2 hk⟩
    · rintro q ⟨hq1, hq2⟩
      have hnf : isFree t n = false := hi.excl n hA
      rcases (hfree' _).1 hq1 with h1 | h1
      · rcases (hfree' _).1 hq2 with h2 | h2
        · omega
        · rcases h with h | h
          · omega
          · have : buddyNode n = 2 * q + 1 := by
              unfold buddyNode; split_ifs <;> omega
            rw [this, h2] at h
            exact absurd h (by decide)
      · rcases (hfree' _).1 hq2 with h2 | h2
        · rcases h with h | h
          · have : q = 0 := by omega
            subst this
            rw [isFree_zero] at h1
            exact absurd h1 (by decide)
          · have : buddyNode n = 2 * q := by
              unfold buddyNode; split_ifs <;> omega
            rw [this, h1] at h
            exact absurd h (by decide)
        · exact hi.nobuddies q ⟨h1, h2⟩
  | merge t n t' hn1 hb _ ih =>
    obtain ⟨hr1, hr2⟩ := hi.range n hA
    have hn2 : 2 ≤ n := by omega
    have occ_n : Occ t A n := Or.inr hA
    have occ_b : Occ t A (buddyNode n) := Or.inl hb
    have hnp : ¬ Occ t A (n / 2) := hi.not_occ_parent hr1 occ_n
    have hbr := isFree_range t _ hb
    have hnf : isFree t n = false := hi.excl n hA
    have hnb := buddyNode_cases n hn2
    have hfree1 : ∀ m, isFree (mark t (buddyNode n) false) m = true ↔
        (isFree t m = true ∧ m ≠ buddyNode n) := by
      intro m
      rw [isFree_mark]
      by_cases hm : buddyNode n = m
      · subst hm; simp [hbr.1, hbr.2]
      · have : ¬ m = buddyNode n := fun h => hm h.symm
        simp [hm, this]
    have hocc : ∀ m, Occ (mark t (buddyNode n) false) (fun m => (A m ∧ m ≠ n) ∨ m = n / 2) m ↔
        ((Occ t A m ∧ m ≠ n ∧ m ≠ buddyNode n) ∨ m = n / 2) := by
      intro m
      unfold Occ
      rw [hfree1]
      constructor
      · rintro (⟨h1, h2⟩ | ⟨h1, h2⟩ | h)
        · refine Or.inl ⟨Or.inl h1, ?_, h2⟩
          rintro rfl
          rw [hnf] at h1; exact absurd h1 (by decide)
        · refine Or.inl ⟨Or.inr h1, h2, ?_⟩
          rintro rfl
          have := hi.excl _ h1
          rw [hb] at this; exact absurd this (by decide)
        · exact Or.inr h
      · rintro (⟨h1 | h1, h2, h3⟩ | h)
        · exact Or.inl ⟨h1, h3⟩
        · exact Or.inr (Or.inl ⟨h1, h2⟩)
        · exact Or.inr (Or.inr h)
    have inv1 : TreeInv L (mark t (buddyNode n) false) (fun m => (A m ∧ m ≠ n) ∨ m = n / 2) := by
      refine ⟨?_, ?_, ?_, ?_, ?_, ?_⟩
      · rw [length_mark, hi.length]
      · rintro m (hm | rfl)
        · exact hi.range m hm.1
        · exact ⟨by omega, by omega⟩
      · intro m hm
        cases hfm : isFree (mark t (buddyNode n) false) m with
        | false => rfl
        | true =>
          exfalso
          have h1 := ((hfree1 m).1 hfm).1
          rcases hm with hm | hm
          · have := hi.excl m hm.1
            rw [h1] at this; exact absurd this (by decide)
          · subst hm
            exact hnp (Or.inl h1)
      · intro x y hx hy hxy
        rcases (hocc x).1 hx with ⟨hx1, hx2, hx3⟩ | hx1 <;>
          rcases (hocc y).1 hy with ⟨hy1, hy2, hy3⟩ | hy1
        · exact hi.antichain x y hx1 hy1 hxy
        · subst hy1
          exact absurd (hi.antichain x n hx1 occ_n hxy.of_half) hx2
        · subst hx1
          rcases hxy.cases_child with h | h | h
          · subst h; exact absurd hy1 hnp
          · rcases hnb with ⟨e1, e2⟩ | ⟨e1, e2⟩
            · rw [← e1] at h
              exact absurd (hi.antichain n y occ_n hy1 h).symm hy2
            · rw [← e2] at h
              exact absurd (hi.antichain _ y occ_b hy1 h).symm hy3
          · rcases hnb with ⟨e1, e2⟩ | ⟨e1, e2⟩
            · rw [← e2] at h
              exact absurd (hi.antichain _ y occ_b hy1 h).symm hy3
            · rw [← e1] at h
              exact absurd (hi.antichain n y occ_n hy1 h).symm hy2
        · rw [hx1, hy1]
      · intro leaf hl1 hl2
        obtain ⟨k, hk⟩ := hi.cover leaf hl1 hl2
        by_cases hkn : leaf / 2 ^ k = n ∨ leaf / 2 ^ k = buddyNode n
        · refine ⟨k + 1, (hocc _).2 (Or.inr ?_)⟩
          rw [div_pow_succ']
          rcases hkn with h | h <;> rw [h]
          rcases hnb with ⟨e1, e2⟩ | ⟨e1, e2⟩ <;> omega
        · exact ⟨k, (hocc _).2 (Or.inl ⟨hk, fun h => hkn (Or.inl h), fun h => hkn (Or.inr h)⟩)⟩
      · rintro q ⟨hq1, hq2⟩
        exact hi.nobuddies q ⟨isFree_mark_false_imp _ _ _ hq1, isFree_mark_false_imp _ _ _ hq2⟩
    have := ih inv1 (Or.inr rfl)
    have heq : (fun m => ((A m ∧ m ≠ n) ∨ m = n / 2) ∧ m ≠ n / 2) = (fun m => A m ∧ m ≠ n) := by
      funext m
      apply propext
      constructor
      · rintro ⟨h | h, h2⟩
        · exact h
        · exact absurd h h2
      · rintro ⟨h1, h2⟩
        refine ⟨Or.inl ⟨h1, h2⟩, ?_⟩
        rintro rfl
        exact hnp (Or.inr h1)
    rwa [heq] at this

/-! ## With nothing allocated only the root is free -/

/-- Below every node of the tree there is a node of the last level. -/
theorem exists_leaf_below (L b : Nat) (h1 : 1 ≤ b) (h2 : b < 2 ^ L) :
    ∃ j, 2 ^ (L - 1) ≤ b * 2 ^ j ∧ b * 2 ^ j < 2 ^ L := by
  have hb0 : b ≠ 0 := by omega
  have hlog : Nat.log 2 b < L := (Nat.lt_pow_iff_log_lt (by decide) hb0).1 h2
  have hlo : 2 ^ Nat.log 2 b ≤ b := Nat.pow_log_le_self 2 hb0
  have hhi : b < 2 ^ (Nat.log 2 b + 1) := Nat.lt_pow_succ_log_self (by decide) b
  refine ⟨L - 1 - Nat.log 2 b, ?_, ?_⟩
  · have : 2 ^ (L - 1) = 2 ^ Nat.log 2 b * 2 ^ (L - 1 - Nat.log 2 b) := by
      rw [← pow_add]; congr 1; omega
    rw [this]
    exact Nat.mul_le_mul_right _ hlo
  · have : 2 ^ L = 2 ^ (Nat.log 2 b + 1) * 2 ^ (L - 1 - Nat.log 2 b) := by
      rw [← pow_add]; congr 1; omega
    rw [this]
    exact Nat.mul_lt_mul_of_pos_right hhi (by positivity)

theorem TreeInv.no_free_above_root {L : Nat} {t : BitMap} {A : Nat → Prop}
    (hi : TreeInv L t A) (hA : ∀ n, ¬ A n) :
    ∀ d n, 2 ^ L ≤ n + d → 2 ≤ n → isFree t n = false := by
  intro d
  induction d with
  | zero =>
    intro n h1 _
    cases hf : isFree t n with
    | false => rfl
    | true =>
      have := (isFree_range t n hf).2
      rw [hi.length] at this
      omega
  | succ d ih =>
    intro n h1 h2
    cases hf : isFree t n with
    | false => rfl
    | true =>
      exfalso
      have hr := isFree_range t n hf
      rw [hi.length] at hr
      have hnb := buddyNode_cases n h2
      have hb1 : 1 ≤ buddyNode n := by omega
      have hb2 : buddyNode n < 2 ^ L := by
        have hL : 1 ≤ L := by
          rcases Nat.eq_zero_or_pos L with h | h
          · subst h; simp at hr; omega
          · exact h
        have : 2 ^ L = 2 * 2 ^ (L - 1) := by
          rw [← pow_succ']; congr 1; omega
        omega
      obtain ⟨j, hj1, hj2⟩ := exists_leaf_below L (buddyNode n) hb1 hb2
      obtain ⟨k, hk⟩ := hi.cover _ hj1 hj2
      have hk' : isFree t (buddyNode n * 2 ^ j / 2 ^ k) = true := by
        rcases hk with h | h
        · exact h
        · exact absurd h (hA _)
      have hancb : IsAnc (buddyNode n) (buddyNode n * 2 ^ j) :=
        ⟨j, Nat.mul_div_cancel _ (by positivity)⟩
      have hancm : IsAnc (buddyNode n * 2 ^ j / 2 ^ k) (buddyNode n * 2 ^ j) := ⟨k, rfl⟩
      have hbuddy : ¬ isFree t (buddyNode n) = true := by
        intro hbf
        rcases hnb with ⟨e1, e2⟩ | ⟨e1, e2⟩
        · exact hi.nobuddies (n / 2) ⟨by rw [← e1]; exact hf, by rw [← e2]; exact hbf⟩
        · exact hi.nobuddies (n / 2) ⟨by rw [← e2]; exact hbf, by rw [← e1]; exact hf⟩
      have hbhalf : buddyNode n / 2 = n / 2 := by omega
      generalize buddyNode n * 2 ^ j / 2 ^ k = m at hk' hancm
      rcases hancm.comparable hancb with h | h
      · rcases h.cases_half with h' | h'
        · subst h'; exact hbuddy hk'
        · rw [hbhalf] at h'
          have := hi.antichain m n (Or.inl hk') (Or.inl hf) h'.of_half
          have := h'.le
          omega
      · rcases h.cases_child with h' | h' | h'
        · subst h'; exact hbuddy hk'
        · have hle := h'.le
          have := ih m (by omega) (by omega)
          rw [hk'] at this; exact absurd this (by decide)
        · have hle := h'.le
          have := ih m (by omega) (by omega)
          rw [hk'] at this; exact absurd this (by decide)

/-- With no allocated node, the tree invariant leaves exactly the root free. -/
theorem TreeInv.only_root {L : Nat} {t : BitMap} {A : Nat → Prop}
    (hi : TreeInv L t A) (hA : ∀ n, ¬ A n) (hL : 1 ≤ L) (n : Nat) :
    isFree t n = true ↔ n = 1 := by
  have hnone : ∀ n, 2 ≤ n → isFree t n = false :=
    fun n hn => hi.no_free_above_root hA (2 ^ L) n (by omega) hn
  have hpow : 2 ^ (L - 1) < 2 ^ L := Nat.pow_lt_pow_right (by decide) (by omega)
  obtain ⟨k, hk⟩ := hi.cover (2 ^ (L - 1)) (le_refl _) hpow
  have hroot : isFree t 1 = true := by
    rcases hk with h | h
    · have h0 := (isFree_range t _ h).1
      by_cases h2 : 2 ≤ 2 ^ (L - 1) / 2 ^ k
      · rw [hnone _ h2] at h; exact absurd h (by decide)
      · have : 2 ^ (L - 1) / 2 ^ k = 1 := by omega
        rwa [this] at h
    · exact absurd h (hA _)
  constructor
  · intro h
    have h0 := (isFree_range t _ h).1
    by_cases h2 : 2 ≤ n
    · rw [hnone _ h2] at h; exact absurd h (by decide)
    · omega
  · rintro rfl; exact hroot

/-- The bitmap of a freshly initialised allocator of `L` levels. -/
theorem isFree_initTree (L n : Nat) :
    isFree (true :: List.replicate (2 ^ L - 2) false) n = true ↔ n = 1 := by
  rw [isFree_eq]
  rcases Nat.lt_or_ge n 1 with h | h
  · have : n = 0 := by omega
    subst this; simp
  · rcases Nat.eq_or_lt_of_le h with h1 | h1
    · subst h1; simp
    · obtain ⟨m, rfl⟩ : ∃ m, n = m + 2 := ⟨n - 2, by omega⟩
      simp only [List.getD_eq_getElem?_getD, List.getElem?_replicate, Nat.add_sub_cancel,
        show m + 2 - 1 = m + 1 from rfl, List.getElem?_cons_succ]
      split_ifs <;> simp

theorem TreeInv.eq_initTree {L : Nat} {t : BitMap} {A : Nat → Prop}
    (hi : TreeInv L t A) (hA : ∀ n, ¬ A n) (hL : 1 ≤ L) :
    t = true :: List.replicate (2 ^ L - 2) false := by
  apply bitmap_ext
  · rw [hi.length]
    have : 2 ≤ 2 ^ L := by
      calc 2 = 2 ^ 1 := by norm_num
        _ ≤ 2 ^ L := Nat.pow_le_pow_right (by decide) hL
    simp; omega
  · intro n
    have h1 := hi.only_root hA hL n
    have h2 := isFree_initTree L n
    cases hf : isFree t n <;> cases hg : isFree (true :: List.replicate (2 ^ L - 2) false) n <;>
      simp_all

/-! ## The initial state -/

theorem setBit_natCast (t : BitMap) (i : Nat) (v : Bool) :
    BitMap_setBit t (i : Int) v = mark t (i + 1) v := by
  unfold mark
  congr 1
  push_cast
  ring

theorem initLoop_spec (n s : Nat) (t : BitMap) :
    ((List.range' s n).foldl (fun (t : BitMap) (i : Nat) => BitMap_setBit t (i : Int) false) t).length = t.length ∧
    ∀ m, isFree ((List.range' s n).foldl (fun (t : BitMap) (i : Nat) => BitMap_setBit t (i : Int) false) t) m
      = if s + 1 ≤ m ∧ m ≤ s + n ∧ m ≤ t.length then false else isFree t m := by
  induction n generalizing s t with
  | zero =>
    refine ⟨rfl, ?_⟩
    intro m
    have : ¬ (s + 1 ≤ m ∧ m ≤ s + 0 ∧ m ≤ t.length) := by omega
    rw [if_neg this]
    rfl
  | succ n ih =>
    rw [List.range'_succ, List.foldl_cons, setBit_natCast]
    obtain ⟨h1, h2⟩ := ih (s + 1) (mark t (s + 1) false)
    refine ⟨by rw [h1, length_mark], ?_⟩
    intro m
    rw [h2, length_mark, isFree_mark]
    by_cases hm : s + 1 = m
    · subst hm
      by_cases hl : s + 1 ≤ t.length
      · have : ¬ (s + 1 + 1 ≤ s + 1 ∧ s + 1 ≤ s + 1 + n ∧ s + 1 ≤ t.length) := by omega
        simp [this, hl]
      · have : ¬ (s + 1 + 1 ≤ s + 1 ∧ s + 1 ≤ s + 1 + n ∧ s + 1 ≤ t.length) := by omega
        have h3 : ¬ (s + 1 ≤ s + 1 ∧ s + 1 ≤ s + (n + 1) ∧ s + 1 ≤ t.length) := by omega
        simp [this, hl, h3]
    · have h3 : ¬ (s + 1 = m ∧ 1 ≤ s + 1 ∧ s + 1 ≤ t.length) := by omega
      simp only [h3, if_false]
      by_cases hc : s + 1 + 1 ≤ m ∧ m ≤ s + 1 + n ∧ m ≤ t.length
      · have : s + 1 ≤ m ∧ m ≤ s + (n + 1) ∧ m ≤ t.length := by omega
        simp [hc, this]
      · have : ¬ (s + 1 ≤ m ∧ m ≤ s + (n + 1) ∧ m ≤ t.length) := by omega
        simp [hc, this]

/-- What `BuddyAllocator_init` returns: the arguments are stored and, for
`num_levels ≥ 1`, the bitmap has `2^num_levels - 1` bits of which only bit 0
(the root) is set. -/
theorem init_spec {MAX_LEVELS sizeofBitMap num_levels : Int} {storage : Nat → Bool}
    {buffer_size memory : Int} {min_bucket_size : Nat} {a0 : BuddyAllocator}
    (h : BuddyAllocator_init MAX_LEVELS sizeofBitMap num_levels storage buffer_size memory
      min_bucket_size = .done a0) (hL : 1 ≤ num_levels) :
    a0.num_levels = num_levels ∧ a0.memory = memory ∧ a0.min_bucket_size = min_bucket_size ∧
    a0.tree = true :: List.replicate (2 ^ num_levels.toNat - 2) false := by
  unfold BuddyAllocator_init at h
  split_ifs at h with h1 h2
  simp only [Outcome.done.injEq] at h
  subst h
  refine ⟨rfl, rfl, rfl, ?_⟩
  simp only
  obtain ⟨L, rfl⟩ : ∃ L : Nat, num_levels = (L : Int) := ⟨num_levels.toNat, by omega⟩
  have hL1 : 1 ≤ L := by omega
  have hpow : 2 ≤ 2 ^ L := by
    calc 2 = 2 ^ 1 := by norm_num
      _ ≤ 2 ^ L := Nat.pow_le_pow_right (by decide) hL1
  have hbits : ((shl1 (L : Int) : Nat) : Int) - 1 = ((2 ^ L - 1 : Nat) : Int) := by
    rw [shl1_natCast]; omega
  rw [hbits]
  have hcnt : (((2 ^ L - 1 : Nat) : Int) - 1).toNat = 2 ^ L - 2 := by omega
  rw [hcnt]
  have hz : BitMap_setBit (BitMap_init ((2 ^ L - 1 : Nat) : Int) storage) 0 true
      = mark (BitMap_init ((2 ^ L - 1 : Nat) : Int) storage) 1 true := by
    have := setBit_natCast (BitMap_init ((2 ^ L - 1 : Nat) : Int) storage) 0 true
    simpa using this
  rw [hz]
  have hlen0 : (BitMap_init ((2 ^ L - 1 : Nat) : Int) storage).length = 2 ^ L - 1 := by
    unfold BitMap_init
    rw [List.length_map, List.length_range, Int.toNat_ofNat]
  obtain ⟨hl, hf⟩ := initLoop_spec (2 ^ L - 2) 1
    (mark (BitMap_init ((2 ^ L - 1 : Nat) : Int) storage) 1 true)
  apply bitmap_ext
  · rw [hl, length_mark, hlen0]
    simp; omega
  · intro n
    rw [hf, length_mark, hlen0, isFree_mark, hlen0]
    have h2 := isFree_initTree L n
    simp only [Int.toNat_ofNat]
    by_cases hn1 : n = 1
    · subst hn1
      have e1 : ¬ (1 + 1 ≤ 1 ∧ 1 ≤ 1 + (2 ^ L - 2) ∧ 1 ≤ 2 ^ L - 1) := by omega
      have e2 : (1 = 1 ∧ 1 ≤ 1 ∧ 1 ≤ 2 ^ L - 1) := by omega
      rw [if_neg e1, if_pos e2]
      exact (h2.2 rfl).symm
    · have hg : isFree (true :: List.replicate (2 ^ L - 2) false) n = false := by
        cases hx : isFree (true :: List.replicate (2 ^ L - 2) false) n with
        | false => rfl
        | true => exact absurd (h2.1 hx) hn1
      rw [hg]
      by_cases hc : 1 + 1 ≤ n ∧ n ≤ 1 + (2 ^ L - 2) ∧ n ≤ 2 ^ L - 1
      · rw [if_pos hc]
      · rw [if_neg hc]
        have e2 : ¬ (1 = n ∧ 1 ≤ 1 ∧ 1 ≤ 2 ^ L - 1) := by omega
        rw [if_neg e2]
        cases hx : isFree (BitMap_init ((2 ^ L - 1 : Nat) : Int) storage) n with
        | false => rfl
        | true =>
          have := isFree_range _ _ hx
          rw [hlen0] at this
          omega

/-- The freshly initialised bitmap satisfies the tree invariant with no
allocated node. -/
theorem TreeInv.initTree (L : Nat) (hL : 1 ≤ L) :
    TreeInv L (true :: List.replicate (2 ^ L - 2) false) (fun _ => False) := by
  have hpow : 2 ≤ 2 ^ L := by
    calc 2 = 2 ^ 1 := by norm_num
      _ ≤ 2 ^ L := Nat.pow_le_pow_right (by decide) hL
  have hocc : ∀ n, Occ (true :: List.replicate (2 ^ L - 2) false) (fun _ => False) n → n = 1 := by
    rintro n (h | h)
    · exact (isFree_initTree L n).1 h
    · exact absurd h id
  refine ⟨?_, ?_, ?_, ?_, ?_, ?_⟩
  · simp; omega
  · intro n h; exact absurd h id
  · intro n h; exact absurd h id
  · intro x y hx hy _
    rw [hocc x hx, hocc y hy]
  · intro leaf h1 h2
    refine ⟨L - 1, Or.inl ((isFree_initTree L _).2 ?_)⟩
    apply Nat.div_eq_of_lt_le
    · simpa using h1
    · have : 2 ^ L = 2 * 2 ^ (L - 1) := by
        rw [← pow_succ']; congr 1; omega
      omega
  · rintro p ⟨h1, _⟩
    have := (isFree_initTree L _).1 h1
    omega

/-! ## malloc and free, case by case -/

theorem mallocLevel_le (alloc : BuddyAllocator) (size : Nat) :
    mallocLevel alloc size ≤ alloc.num_levels := by
  unfold mallocLevel
  simp only
  split_ifs <;> omega

/-- A request that reaches level 1 or deeper fits the managed region, and
the bucket size is positive. -/
theorem mallocLevel_pos (alloc : BuddyAllocator) (size : Nat) (h : 1 ≤ mallocLevel alloc size) :
    2 * (size + sizeof_int) ≤ shl1 alloc.num_levels * alloc.min_bucket_size ∧
    1 ≤ alloc.num_levels ∧ 0 < alloc.min_bucket_size := by
  have hle := mallocLevel_le alloc size
  have hs0 : 0 < size + sizeof_int := by simp [sizeof_int]
  by_cases hq : shl1 alloc.num_levels * alloc.min_bucket_size / (size + sizeof_int) = 0
  · exfalso
    unfold mallocLevel at h
    simp only [hq, floorLog2_zero] at h
    unfold INT_MIN at h
    split_ifs at h <;> omega
  · have heq := mallocLevel_eq alloc size hq
    have hlog : 1 ≤ Nat.log 2 (shl1 alloc.num_levels * alloc.min_bucket_size / (size + sizeof_int)) := by
      rw [heq] at h
      have := min_le_right alloc.num_levels
        ((Nat.log 2 (shl1 alloc.num_levels * alloc.min_bucket_size / (size + sizeof_int)) : Nat) : Int)
      omega
    have h2 : 2 ^ 1 ≤ shl1 alloc.num_levels * alloc.min_bucket_size / (size + sizeof_int) :=
      (Nat.pow_le_iff_le_log (by decide) hq).2 hlog
    rw [Nat.le_div_iff_mul_le hs0] at h2
    refine ⟨by simpa using h2, by omega, ?_⟩
    rcases Nat.eq_zero_or_pos alloc.min_bucket_size with h0 | h0
    · rw [h0] at h2; simp at h2; omega
    · exact h0

/-- The two ways `BuddyAllocator_malloc` ends on an allocator with
`num_levels = L`: it returns null and changes nothing, or getBuddy grants a
node `n` of level `d + 1` and the pointer behind the header of its block is
returned. -/
theorem malloc_cases (alloc : BuddyAllocator) (heap : Heap) (size : Nat) :
    (BuddyAllocator_malloc alloc heap size = .done (none, alloc, heap) ∧
      BuddyAllocator_getBuddy alloc (mallocLevel alloc size) = .done (0, alloc) ∧
      (1 ≤ mallocLevel alloc size →
        ∀ m, 1 ≤ m → m < 2 ^ (mallocLevel alloc size).toNat → isFree alloc.tree m = false))
    ∨ ∃ (d n : Nat) (t' : BitMap), mallocLevel alloc size = (d : Int) + 1 ∧ Grants alloc.tree d n t' ∧
        BuddyAllocator_getBuddy alloc (mallocLevel alloc size)
          = .done ((n : Int), { alloc with tree := t' }) ∧
        BuddyAllocator_malloc alloc heap size
          = .done (some (alloc.memory + blockOffset alloc ((d : Int) + 1) (n : Int) + sizeof_int),
              { alloc with tree := t' },
              Function.update heap (alloc.memory + blockOffset alloc ((d : Int) + 1) (n : Int))
                (n : Int)) := by
  have hle := mallocLevel_le alloc size
  by_cases hl : mallocLevel alloc size < 1
  · left
    have hg : BuddyAllocator_getBuddy alloc (mallocLevel alloc size) = .done (0, alloc) := by
      unfold BuddyAllocator_getBuddy
      have : (mallocLevel alloc size).toNat + 1 = 0 + 1 := by omega
      rw [this]
      unfold getBuddyAux
      simp [hl]
    refine ⟨?_, hg, fun h => by omega⟩
    unfold BuddyAllocator_malloc
    simp only [hg]
    simp
  · obtain ⟨d, hd⟩ : ∃ d : Nat, mallocLevel alloc size = (d : Int) + 1 :=
      ⟨(mallocLevel alloc size - 1).toNat, by omega⟩
    have hb : (mallocLevel alloc size).toNat + 1 = d + 2 := by omega
    rcases getBuddyAux_spec d alloc (d + 2) (by omega) (le_refl _) with ⟨hz, hno⟩ | ⟨n, t', hg, hr⟩
    · left
      have hg : BuddyAllocator_getBuddy alloc (mallocLevel alloc size) = .done (0, alloc) := by
        unfold BuddyAllocator_getBuddy
        rw [hb, hd]; exact hz
      refine ⟨?_, hg, fun _ => ?_⟩
      · unfold BuddyAllocator_malloc
        simp only [hg]
        simp
      · have : (mallocLevel alloc size).toNat = d + 1 := by omega
        rw [this]; exact hno
    · right
      have hg' : BuddyAllocator_getBuddy alloc (mallocLevel alloc size)
          = .done ((n : Int), { alloc with tree := t' }) := by
        unfold BuddyAllocator_getBuddy
        rw [hb, hd]; exact hr
      refine ⟨d, n, t', hd, hg, hg', ?_⟩
      have hn1 : 1 ≤ n := le_trans Nat.one_le_two_pow hg.level.1
      have hn0 : ¬ ((n : Int) = 0) := by omega
      unfold BuddyAllocator_malloc
      simp only [hg']
      simp only [hn0, if_false, hd]
      rfl

/-- `BuddyAllocator_free` on a pointer whose header holds a node `n` of the
tree returns, with the bitmap described by `Releases`. -/
theorem free_spec (alloc : BuddyAllocator) (heap : Heap) (p : Int) (L n : Nat)
    (hL : alloc.num_levels = (L : Int)) (hh : heap (p - sizeof_int) = (n : Int))
    (h1 : 1 ≤ n) (h2 : n < 2 ^ L) :
    ∃ t', Releases alloc.tree n t' ∧
      BuddyAllocator_free alloc heap p = .done { alloc with tree := t' } := by
  have hlog : Nat.log 2 n + 1 ≤ (n : Int).natAbs + 3 := by
    have := Nat.log_le_self 2 n
    simp only [Int.natAbs_ofNat]
    omega
  obtain ⟨t', hr, he⟩ := releaseBuddyAux_spec n alloc ((n : Int).natAbs + 3) h1 hlog
  refine ⟨t', hr, ?_⟩
  have hlt : ¬ ¬ (n : Int) < ((shl1 alloc.num_levels : Nat) : Int) := by
    rw [hL, shl1_natCast]
    have : (n : Int) < ((2 ^ L : Nat) : Int) := by exact_mod_cast h2
    exact not_not.2 this
  unfold BuddyAllocator_free BuddyAllocator_releaseBuddy
  simp only [hh]
  rw [if_neg hlt]
  exact he

/-! ## Blocks and bytes -/

/-- The byte `x` of the block of node `n` (level `d + 1`) belongs to the leaf
`2^(L-1) + x / min_bucket_size`, which lies below `n`. -/
theorem leaf_of_byte (L d n mbs x : Nat) (hd : d + 1 ≤ L) (h1 : 2 ^ d ≤ n) (h2 : n < 2 ^ (d + 1))
    (hm : 0 < mbs)
    (hx1 : mbs * 2 ^ (L - 1) / 2 ^ d * (n - 2 ^ d) ≤ x)
    (hx2 : x < mbs * 2 ^ (L - 1) / 2 ^ d * (n - 2 ^ d) + mbs * 2 ^ (L - 1) / 2 ^ d) :
    2 ^ (L - 1) + x / mbs < 2 ^ L ∧ IsAnc n (2 ^ (L - 1) + x / mbs) ∧ x < mbs * 2 ^ (L - 1) := by
  obtain ⟨e, he⟩ : ∃ e, L - 1 = e + d := ⟨L - 1 - d, by omega⟩
  obtain ⟨r, hr⟩ : ∃ r, n = 2 ^ d + r := ⟨n - 2 ^ d, by omega⟩
  have hL : 2 ^ L = 2 * (2 ^ e * 2 ^ d) := by
    rw [← pow_add, ← he, ← pow_succ']; congr 1; omega
  have hB : mbs * 2 ^ (L - 1) / 2 ^ d = mbs * 2 ^ e := by
    rw [he, pow_add, ← Nat.mul_assoc]
    exact Nat.mul_div_cancel _ (by positivity)
  have hrd : r < 2 ^ d := by rw [pow_succ] at h2; omega
  rw [hB, hr, Nat.add_sub_cancel_left] at hx1 hx2
  have hy1 : 2 ^ e * r ≤ x / mbs := by
    rw [Nat.le_div_iff_mul_le hm]
    calc 2 ^ e * r * mbs = mbs * 2 ^ e * r := by ring
      _ ≤ x := hx1
  have hy2 : x / mbs < 2 ^ e * (r + 1) := by
    rw [Nat.div_lt_iff_lt_mul hm]
    calc x < mbs * 2 ^ e * r + mbs * 2 ^ e := hx2
      _ = 2 ^ e * (r + 1) * mbs := by ring
  have hle : 2 ^ e * (r + 1) ≤ 2 ^ e * 2 ^ d := Nat.mul_le_mul_left _ (by omega)
  have hPQ : 2 ^ (L - 1) = 2 ^ e * 2 ^ d := by rw [he, pow_add]
  refine ⟨?_, ⟨e, ?_⟩, ?_⟩
  · rw [hL, hPQ]; omega
  · rw [hr, hPQ]
    apply Nat.div_eq_of_lt_le
    · linarith
    · linarith
  · rw [hPQ]
    calc x < mbs * 2 ^ e * r + mbs * 2 ^ e := hx2
      _ = mbs * (2 ^ e * (r + 1)) := by ring
      _ ≤ mbs * (2 ^ e * 2 ^ d) := Nat.mul_le_mul_left _ hle

/-! ## The invariant of the reachable states -/

theorem TreeInv.congr {L : Nat} {t : BitMap} {A A' : Nat → Prop} (hi : TreeInv L t A)
    (h : ∀ m, A m ↔ A' m) : TreeInv L t A' := by
  have : A = A' := funext fun m => propext (h m)
  rw [← this]; exact hi

theorem blockSize_eq (alloc : BuddyAllocator) (L d : Nat) (hL : alloc.num_levels = (L : Int)) :
    blockSize alloc ((d : Int) + 1) = alloc.min_bucket_size * 2 ^ (L - 1) / 2 ^ d := by
  unfold blockSize shl1
  rw [hL]
  have h1 : ((L : Int) - 1).toNat = L - 1 := by omega
  have h2 : ((d : Int) + 1 - 1).toNat = d := by omega
  rw [h1, h2]

theorem blockOffset_eq (alloc : BuddyAllocator) (L d n : Nat) (hL : alloc.num_levels = (L : Int))
    (hn : 2 ^ d ≤ n) :
    blockOffset alloc ((d : Int) + 1) (n : Int)
      = ((alloc.min_bucket_size * 2 ^ (L - 1) / 2 ^ d * (n - 2 ^ d) : Nat) : Int) := by
  unfold blockOffset
  rw [blockSize_eq alloc L d hL]
  have h2 : shl1 ((d : Int) + 1 - 1) = 2 ^ d := by
    unfold shl1
    have : ((d : Int) + 1 - 1).toNat = d := by omega
    rw [this]
  rw [h2]
  push_cast [Nat.cast_sub hn]
  rfl

/-- A block of a level `d + 1 ≤ L` is not empty when the bucket size is positive. -/
theorem blockSize_pos (mbs L d : Nat) (hm : 0 < mbs) (hd : d + 1 ≤ L) :
    0 < mbs * 2 ^ (L - 1) / 2 ^ d := by
  obtain ⟨e, he⟩ : ∃ e, L - 1 = e + d := ⟨L - 1 - d, by omega⟩
  rw [he, pow_add, ← Nat.mul_assoc, Nat.mul_div_cancel _ (by positivity)]
  positivity

/-- Two nodes in use whose blocks share a byte are the same node. -/
theorem TreeInv.nodes_disjoint {L : Nat} {t : BitMap} {A : Nat → Prop} (hi : TreeInv L t A)
    (mbs : Nat) (hm : 0 < mbs) (d n d' n' x : Nat)
    (hd : d + 1 ≤ L) (h1 : 2 ^ d ≤ n) (h2 : n < 2 ^ (d + 1)) (hA : Occ t A n)
    (hd' : d' + 1 ≤ L) (h1' : 2 ^ d' ≤ n') (h2' : n' < 2 ^ (d' + 1)) (hA' : Occ t A n')
    (hx1 : mbs * 2 ^ (L - 1) / 2 ^ d * (n - 2 ^ d) ≤ x)
    (hx2 : x < mbs * 2 ^ (L - 1) / 2 ^ d * (n - 2 ^ d) + mbs * 2 ^ (L - 1) / 2 ^ d)
    (hx1' : mbs * 2 ^ (L - 1) / 2 ^ d' * (n' - 2 ^ d') ≤ x)
    (hx2' : x < mbs * 2 ^ (L - 1) / 2 ^ d' * (n' - 2 ^ d') + mbs * 2 ^ (L - 1) / 2 ^ d') :
    n = n' := by
  obtain ⟨_, ha, _⟩ := leaf_of_byte L d n mbs x hd h1 h2 hm hx1 hx2
  obtain ⟨_, ha', _⟩ := leaf_of_byte L d' n' mbs x hd' h1' h2' hm hx1' hx2'
  rcases ha.comparable ha' with h | h
  · exact hi.antichain n n' hA hA' h
  · exact (hi.antichain n' n hA' hA h).symm

theorem sizeof_int_cast : ((sizeof_int : Nat) : Int) = 4 := rfl

/-- A successful malloc keeps the invariant, with the new block outstanding. -/
theorem SysInv.malloc_some {L : Nat} {a0 a : BuddyAllocator} {h : Heap} {live : List Block}
    (hi : SysInv L a0 a h live) {d n : Nat} {t' : BitMap} {size : Nat}
    (hlev : mallocLevel a size = (d : Int) + 1) (hg : Grants a.tree d n t') :
    SysInv L a0 { a with tree := t' }
      (Function.update h (a.memory + blockOffset a ((d : Int) + 1) (n : Int)) (n : Int))
      (⟨a.memory + blockOffset a ((d : Int) + 1) (n : Int) + sizeof_int, (n : Int), (d : Int) + 1⟩
        :: live) := by
  have hle := mallocLevel_le a size
  rw [hlev, hi.levels] at hle
  have hd : d + 1 ≤ L := by omega
  obtain ⟨_, _, hmbs⟩ := mallocLevel_pos a size (by omega)
  obtain ⟨hnA, htree⟩ := hi.tree.grant hg hd
  obtain ⟨hn1, hn2⟩ := hg.level
  have htree' : TreeInv L t' (fun m => ∃ b ∈ (⟨a.memory + blockOffset a ((d : Int) + 1) (n : Int)
      + sizeof_int, (n : Int), (d : Int) + 1⟩ :: live : List Block), b.idx = (m : Int)) := by
    apply htree.congr
    intro m
    constructor
    · rintro (⟨b, hb, he⟩ | rfl)
      · exact ⟨b, List.mem_cons_of_mem _ hb, he⟩
      · exact ⟨_, List.mem_cons_self _ _, rfl⟩
    · rintro ⟨b, hb, he⟩
      rcases List.mem_cons.1 hb with rfl | hb
      · right
        simp only at he
        exact_mod_cast he.symm
      · exact Or.inl ⟨b, hb, he⟩
  have hnotin : ∀ b ∈ live, b.idx ≠ (n : Int) := fun b hb he => hnA ⟨b, hb, he⟩
  have hoff : ∀ b ∈ live, b.ptr - sizeof_int ≠ a.memory + blockOffset a ((d : Int) + 1) (n : Int) := by
    intro b hb heq
    obtain ⟨d', n', hl', hd', hi', h1', h2', hp'⟩ := hi.place b hb
    rw [hp', hl', hi'] at heq
    have heq2 : blockOffset a ((d' : Int) + 1) (n' : Int) = blockOffset a ((d : Int) + 1) (n : Int) := by
      omega
    rw [blockOffset_eq a L d' n' hi.levels h1', blockOffset_eq a L d n hi.levels hn1] at heq2
    have heq3 : a.min_bucket_size * 2 ^ (L - 1) / 2 ^ d' * (n' - 2 ^ d')
        = a.min_bucket_size * 2 ^ (L - 1) / 2 ^ d * (n - 2 ^ d) := by exact_mod_cast heq2
    have hB := blockSize_pos a.min_bucket_size L d hmbs hd
    have hB' := blockSize_pos a.min_bucket_size L d' hmbs hd'
    have := htree.nodes_disjoint a.min_bucket_size hmbs d n d' n'
      (a.min_bucket_size * 2 ^ (L - 1) / 2 ^ d * (n - 2 ^ d))
      hd hn1 hn2 (Or.inr (Or.inr rfl)) hd' h1' h2' (Or.inr (Or.inl ⟨b, hb, hi'⟩))
      (le_refl _) (by omega) (by omega) (by omega)
    apply hnotin b hb
    rw [hi', this]
  refine ⟨hi.levels, hi.memory, hi.bucket, htree', ?_, ?_, ?_, ?_, fun _ => hmbs⟩
  · intro b hb
    rcases List.mem_cons.1 hb with rfl | hb
    · simp only
      have : a.memory + blockOffset a ((d : Int) + 1) (n : Int) + sizeof_int - sizeof_int
          = a.memory + blockOffset a ((d : Int) + 1) (n : Int) := by ring
      rw [this, Function.update_same]
    · rw [Function.update_noteq (hoff b hb)]
      exact hi.header b hb
  · intro b hb
    rcases List.mem_cons.1 hb with rfl | hb
    · exact ⟨d, n, rfl, hd, rfl, hn1, hn2, rfl⟩
    · exact hi.place b hb
  · intro b hb c hc he
    rcases List.mem_cons.1 hb with rfl | hb <;> rcases List.mem_cons.1 hc with rfl | hc
    · rfl
    · exact absurd he.symm (hnotin c hc)
    · exact absurd he (hnotin b hb)
    · exact hi.distinct b hb c hc he
  · refine List.nodup_cons.2 ⟨?_, hi.nodup⟩
    intro hmem
    exact hnotin _ hmem rfl

/-- Freeing the pointer of an outstanding block returns and keeps the
invariant, with that block no longer outstanding. -/
theorem SysInv.free {L : Nat} {a0 a : BuddyAllocator} {h : Heap} {live : List Block}
    (hi : SysInv L a0 a h live) {p : Int} (hp : ∃ b ∈ live, b.ptr = p) :
    ∃ a', BuddyAllocator_free a h p = .done a' ∧
      SysInv L a0 a' h (live.filter (fun b => decide (b.ptr ≠ p))) := by
  obtain ⟨b, hb, rfl⟩ := hp
  obtain ⟨d, n, hl, hd, hidx, h1, h2, hptr⟩ := hi.place b hb
  have hhead := hi.header b hb
  rw [hidx] at hhead
  have hn1 : 1 ≤ n := le_trans Nat.one_le_two_pow h1
  have hn2 : n < 2 ^ L := lt_of_lt_of_le h2 (Nat.pow_le_pow_right (by decide) hd)
  obtain ⟨t', hr, hf⟩ := free_spec a h b.ptr L n hi.levels hhead hn1 hn2
  refine ⟨_, hf, ?_⟩
  have htree := hi.tree.release hr ⟨b, hb, hidx⟩
  have hsub : ∀ c, c ∈ live.filter (fun c => decide (c.ptr ≠ b.ptr)) → c ∈ live :=
    fun c hc => (List.mem_filter.1 hc).1
  refine ⟨hi.levels, hi.memory, hi.bucket, ?_, ?_, ?_, ?_, ?_, ?_⟩
  · apply htree.congr
    intro m
    constructor
    · rintro ⟨⟨c, hc, he⟩, hne⟩
      refine ⟨c, List.mem_filter.2 ⟨hc, ?_⟩, he⟩
      simp only [ne_eq, decide_not, Bool.not_eq_true', decide_eq_false_iff_not]
      intro hpe
      have := hi.header c hc
      rw [hpe, hhead, he] at this
      apply hne
      exact_mod_cast this.symm
    · rintro ⟨c, hc, he⟩
      obtain ⟨hc1, hc2⟩ := List.mem_filter.1 hc
      simp only [ne_eq, decide_not, Bool.not_eq_true', decide_eq_false_iff_not] at hc2
      refine ⟨⟨c, hc1, he⟩, ?_⟩
      rintro rfl
      have := hi.distinct c hc1 b hb (by rw [he, hidx])
      exact hc2 (by rw [this])
  · intro c hc
    exact hi.header c (hsub c hc)
  · intro c hc
    exact hi.place c (hsub c hc)
  · intro c hc e he
    exact hi.distinct c (hsub c hc) e (hsub e he)
  · exact hi.nodup.filter _
  · intro hne
    apply hi.bucket_pos
    intro hnil
    rw [hnil] at hne
    exact hne rfl

/-- Every reachable state satisfies the invariant. -/
theorem Reach.inv {L : Nat} {a0 a : BuddyAllocator} {h0 h : Heap} {live : List Block}
    (hr : Reach a0 h0 a h live) (h0i : SysInv L a0 a0 h0 []) : SysInv L a0 a h live := by
  induction hr with
  | init => exact h0i
  | @malloc_some a h live size p idx a' h' _ hg hm ih =>
    rcases malloc_cases a h size with ⟨hnull, _, _⟩ | ⟨d, n, t', hlev, hgr, hg', hm'⟩
    · rw [hnull] at hm
      simp at hm
    · rw [hm'] at hm
      rw [hg'] at hg
      simp only [Outcome.done.injEq, Prod.mk.injEq, Option.some.injEq] at hm hg
      obtain ⟨hp, ha, hh⟩ := hm
      subst hp ha hh
      rw [← hg.1, hlev]
      exact ih.malloc_some hlev hgr
  | @malloc_null a h live size a' h' _ hm ih =>
    rcases malloc_cases a h size with ⟨hnull, _, _⟩ | ⟨d, n, t', hlev, hgr, hg', hm'⟩
    · rw [hnull] at hm
      simp only [Outcome.done.injEq, Prod.mk.injEq, true_and] at hm
      obtain ⟨ha, hh⟩ := hm
      subst ha hh
      exact ih
    · rw [hm'] at hm
      simp at hm
  | free p a' _ hp hf ih =>
    obtain ⟨a'', hf', hinv⟩ := ih.free hp
    rw [hf'] at hf
    simp only [Outcome.done.injEq] at hf
    subst hf
    exact hinv
  | write h' _ hw ih =>
    refine ⟨ih.levels, ih.memory, ih.bucket, ih.tree, ?_, ih.place, ih.distinct, ih.nodup,
      ih.bucket_pos⟩
    intro b hb
    rw [hw b hb]
    exact ih.header b hb

/-- The state returned by `BuddyAllocator_init` satisfies the invariant. -/
theorem SysInv.init {MAX_LEVELS sizeofBitMap num_levels : Int} {storage : Nat → Bool}
    {buffer_size memory : Int} {min_bucket_size : Nat} {a0 : BuddyAllocator}
    (h : BuddyAllocator_init MAX_LEVELS sizeofBitMap num_levels storage buffer_size memory
      min_bucket_size = .done a0) (hL : 1 ≤ num_levels) (h0 : Heap) :
    SysInv num_levels.toNat a0 a0 h0 [] := by
  obtain ⟨h1, _, _, h4⟩ := init_spec h hL
  have hL' : 1 ≤ num_levels.toNat := by omega
  refine ⟨by rw [h1]; omega, rfl, rfl, ?_, ?_, ?_, ?_, List.nodup_nil, fun h => absurd rfl h⟩
  · rw [h4]
    apply (TreeInv.initTree num_levels.toNat hL').congr
    intro m
    simp
  · intro b hb; simp at hb
  · intro b hb; simp at hb
  · intro b hb; simp at hb

/-! ## The claims -/

theorem bit_eq_isFree (t : BitMap) (i : Int) (hi : 0 ≤ i) :
    BitMap_bit t i = isFree t (i.toNat + 1) := by
  unfold isFree
  congr 1
  omega

theorem sample_init :
    BuddyAllocator_init 16 16 4 (fun _ => false) 100 1000 16 = .done sampleAlloc := by decide

/-- A concrete admissible run: `malloc(1)` (node 8, level 4) and the free of
the pointer it returned. -/
theorem sample_round_trip :
    Reach sampleAlloc sampleHeap sampleAlloc (Function.update sampleHeap 1000 8) [] :=
  @Reach.free sampleAlloc sampleHeap
    ⟨4, 1000, 16, [false, false, true, false, true, false, false, false, true, false, false,
      false, false, false, false]⟩
    (Function.update sampleHeap 1000 8) [⟨1004, 8, 4⟩] 1004 sampleAlloc
    (@Reach.malloc_some sampleAlloc sampleHeap sampleAlloc sampleHeap [] 1 1004 8
      ⟨4, 1000, 16, [false, false, true, false, true, false, false, false, true, false, false,
        false, false, false, false]⟩
      (Function.update sampleHeap 1000 8) Reach.init (by decide) rfl)
    ⟨_, List.mem_cons_self _ _, rfl⟩ (by decide)

/-- In every reachable state the calls return: malloc for every size, free for
the pointer of every outstanding block.  No assertion fails and the recursion
budget is never exhausted. -/
theorem reach_calls_return {MAX_LEVELS sizeofBitMap num_levels : Int} {storage : Nat → Bool}
    {buffer_size memory : Int} {min_bucket_size : Nat} {a0 a : BuddyAllocator} {h0 h : Heap}
    {live : List Block}
    (hinit : BuddyAllocator_init MAX_LEVELS sizeofBitMap num_levels storage buffer_size memory
      min_bucket_size = .done a0)
    (hL : 1 ≤ num_levels) (hr : Reach a0 h0 a h live) :
    (∀ size : Nat, ∃ p a' h', BuddyAllocator_malloc a h size = .done (p, a', h')) ∧
    (∀ b ∈ live, ∃ a', BuddyAllocator_free a h b.ptr = .done a') := by
  have hinv := hr.inv (SysInv.init hinit hL h0)
  constructor
  · intro size
    rcases malloc_cases a h size with ⟨hnull, _, _⟩ | ⟨d, n, t', _, _, _, hm⟩
    · exact ⟨_, _, _, hnull⟩
    · exact ⟨_, _, _, hm⟩
  · intro b hb
    obtain ⟨a', hf, _⟩ := hinv.free ⟨b, hb, rfl⟩
    exact ⟨a', hf⟩

/-- C1 (round trip to the init state): for `num_levels ≥ 1`, after any
admissible sequence of malloc/free calls on a freshly initialised allocator
that leaves no block outstanding, the bitmap is the one `BuddyAllocator_init`
produced: bit 0 (node 1, the root) is 1 and every other bit is 0. -/
theorem C1_round_trip_to_init {MAX_LEVELS sizeofBitMap num_levels : Int} {storage : Nat → Bool}
    {buffer_size memory : Int} {min_bucket_size : Nat} {a0 a : BuddyAllocator} {h0 h : Heap}
    (hinit : BuddyAllocator_init MAX_LEVELS sizeofBitMap num_levels storage buffer_size memory
      min_bucket_size = .done a0)
    (hL : 1 ≤ num_levels) (hr : Reach a0 h0 a h []) :
    a.tree = a0.tree ∧ a.tree.length = 2 ^ num_levels.toNat - 1 ∧
      BitMap_bit a.tree 0 = true ∧ ∀ i : Int, i ≠ 0 → BitMap_bit a.tree i = false := by
  have hinv := hr.inv (SysInv.init hinit hL h0)
  have hL' : 1 ≤ num_levels.toNat := by omega
  have hempty : ∀ n : Nat, ¬ ∃ b ∈ ([] : List Block), b.idx = (n : Int) := by
    intro n hn
    obtain ⟨b, hb, _⟩ := hn
    simp at hb
  have htree := hinv.tree.eq_initTree hempty hL'
  have hroot := hinv.tree.only_root hempty hL'
  refine ⟨?_, hinv.tree.length, ?_, ?_⟩
  · rw [htree, (init_spec hinit hL).2.2.2]
  · rw [bit_eq_isFree _ 0 (le_refl _)]
    exact (hroot _).2 rfl
  · intro i hi
    by_cases h0 : 0 ≤ i
    · rw [bit_eq_isFree _ i h0]
      cases hf : isFree a.tree (i.toNat + 1) with
      | false => rfl
      | true =>
        have := (hroot _).1 hf
        omega
    · unfold BitMap_bit
      simp [h0]

theorem C1_round_trip_to_init_witness :
    sampleAlloc.tree = sampleAlloc.tree ∧ sampleAlloc.tree.length = 2 ^ (4 : Int).toNat - 1 ∧
      BitMap_bit sampleAlloc.tree 0 = true ∧
      ∀ i : Int, i ≠ 0 → BitMap_bit sampleAlloc.tree i = false :=
  C1_round_trip_to_init sample_init (by decide) sample_round_trip

/-- A concrete admissible run: `malloc(28)` twice (nodes 4 and 5, level 3). -/
theorem sample_reach : Reach sampleAlloc sampleHeap sampleAlloc2 sampleHeap2 sampleLive2 :=
  @Reach.malloc_some sampleAlloc sampleHeap
    ⟨4, 1000, 16, [false, false, true, false, true, false, false, false, false, false, false,
      false, false, false, false]⟩
    (Function.update sampleHeap 1000 4) [⟨1004, 4, 3⟩] 28 1036 5 sampleAlloc2 sampleHeap2
    (@Reach.malloc_some sampleAlloc sampleHeap sampleAlloc sampleHeap [] 28 1004 4
      ⟨4, 1000, 16, [false, false, true, false, true, false, false, false, false, false, false,
        false, false, false, false]⟩
      (Function.update sampleHeap 1000 4) Reach.init (by decide) rfl)
    (by decide) rfl

/-- C3 (free nodes form an antichain): in every state reachable from a freshly
initialised allocator by an admissible sequence of malloc/free calls, a node
whose bit is 1 has no ancestor and no descendant with bit 1, and at most one
node on any root-to-leaf path has bit 1. -/
theorem C3_free_nodes_antichain {MAX_LEVELS sizeofBitMap num_levels : Int} {storage : Nat → Bool}
    {buffer_size memory : Int} {min_bucket_size : Nat} {a0 a : BuddyAllocator} {h0 h : Heap}
    {live : List Block}
    (hinit : BuddyAllocator_init MAX_LEVELS sizeofBitMap num_levels storage buffer_size memory
      min_bucket_size = .done a0)
    (hL : 1 ≤ num_levels) (hr : Reach a0 h0 a h live) :
    (∀ i j : Nat, BitMap_bit a.tree ((i : Int) - 1) = true → j ≠ i → (IsAnc j i ∨ IsAnc i j) →
        BitMap_bit a.tree ((j : Int) - 1) = false) ∧
    (∀ leaf i j : Nat, IsAnc i leaf → IsAnc j leaf → BitMap_bit a.tree ((i : Int) - 1) = true →
        BitMap_bit a.tree ((j : Int) - 1) = true → i = j) := by
  have hinv := hr.inv (SysInv.init hinit hL h0)
  constructor
  · intro i j hi hne hanc
    cases hj : BitMap_bit a.tree ((j : Int) - 1) with
    | false => rfl
    | true =>
      exfalso
      rcases hanc with hc | hc
      · exact hne (hinv.tree.antichain j i (Or.inl hj) (Or.inl hi) hc)
      · exact hne (hinv.tree.antichain i j (Or.inl hi) (Or.inl hj) hc).symm
  · intro leaf i j hi hj hfi hfj
    rcases hi.comparable hj with hc | hc
    · exact hinv.tree.antichain i j (Or.inl hfi) (Or.inl hfj) hc
    · exact (hinv.tree.antichain j i (Or.inl hfj) (Or.inl hfi) hc).symm

theorem C3_free_nodes_antichain_witness :
    (∀ i j : Nat, BitMap_bit sampleAlloc2.tree ((i : Int) - 1) = true → j ≠ i →
        (IsAnc j i ∨ IsAnc i j) → BitMap_bit sampleAlloc2.tree ((j : Int) - 1) = false) ∧
    (∀ leaf i j : Nat, IsAnc i leaf → IsAnc j leaf →
        BitMap_bit sampleAlloc2.tree ((i : Int) - 1) = true →
        BitMap_bit sampleAlloc2.tree ((j : Int) - 1) = true → i = j) :=
  C3_free_nodes_antichain sample_init (by decide) sample_reach

/-- C4 (exclusive path for allocated blocks): in every reachable state, every
outstanding block is a tree node whose bit is 0 and which has no ancestor and
no descendant with bit 1. -/
theorem C4_allocated_exclusive_path {MAX_LEVELS sizeofBitMap num_levels : Int}
    {storage : Nat → Bool} {buffer_size memory : Int} {min_bucket_size : Nat}
    {a0 a : BuddyAllocator} {h0 h : Heap} {live : List Block}
    (hinit : BuddyAllocator_init MAX_LEVELS sizeofBitMap num_levels storage buffer_size memory
      min_bucket_size = .done a0)
    (hL : 1 ≤ num_levels) (hr : Reach a0 h0 a h live) :
    ∀ b ∈ live, ∃ i : Nat, b.idx = (i : Int) ∧ 1 ≤ i ∧ i < 2 ^ num_levels.toNat ∧
      BitMap_bit a.tree (b.idx - 1) = false ∧
      ∀ j : Nat, (IsAnc j i ∨ IsAnc i j) → BitMap_bit a.tree ((j : Int) - 1) = false := by
  have hinv := hr.inv (SysInv.init hinit hL h0)
  intro b hb
  obtain ⟨d, n, _, _, hidx, _, _, _⟩ := hinv.place b hb
  have hA : ∃ c ∈ live, c.idx = (n : Int) := ⟨b, hb, hidx⟩
  obtain ⟨hn1, hn2⟩ := hinv.tree.range n hA
  have hbit : BitMap_bit a.tree ((n : Int) - 1) = false := hinv.tree.excl n hA
  refine ⟨n, hidx, hn1, hn2, by rw [hidx]; exact hbit, ?_⟩
  intro j hanc
  cases hj : BitMap_bit a.tree ((j : Int) - 1) with
  | false => rfl
  | true =>
    exfalso
    have hjn : j = n := by
      rcases hanc with hc | hc
      · exact hinv.tree.antichain j n (Or.inl hj) (Or.inr hA) hc
      · exact (hinv.tree.antichain n j (Or.inr hA) (Or.inl hj) hc).symm
    rw [hjn, hbit] at hj
    exact absurd hj (by decide)

theorem C4_allocated_exclusive_path_witness :
    ∃ i : Nat, (4 : Int) = (i : Int) ∧ 1 ≤ i ∧ i < 2 ^ (4 : Int).toNat ∧
      BitMap_bit sampleAlloc2.tree ((4 : Int) - 1) = false ∧
      ∀ j : Nat, (IsAnc j i ∨ IsAnc i j) → BitMap_bit sampleAlloc2.tree ((j : Int) - 1) = false :=
  C4_allocated_exclusive_path sample_init (by decide) sample_reach ⟨1004, 4, 3⟩ (by decide)

/-- C6 (coverage): in every reachable state the nodes with bit 1 and the
outstanding blocks partition the managed region: every node of the last level
has exactly one ancestor-or-self that is free (bit 1) or outstanding. -/
theorem C6_coverage {MAX_LEVELS sizeofBitMap num_levels : Int}
    {storage : Nat → Bool} {buffer_size memory : Int} {min_bucket_size : Nat}
    {a0 a : BuddyAllocator} {h0 h : Heap} {live : List Block}
    (hinit : BuddyAllocator_init MAX_LEVELS sizeofBitMap num_levels storage buffer_size memory
      min_bucket_size = .done a0)
    (hL : 1 ≤ num_levels) (hr : Reach a0 h0 a h live) :
    ∀ leaf : Nat, 2 ^ (num_levels.toNat - 1) ≤ leaf → leaf < 2 ^ num_levels.toNat →
      ∃! m : Nat, IsAnc m leaf ∧
        (BitMap_bit a.tree ((m : Int) - 1) = true ∨ ∃ b ∈ live, b.idx = (m : Int)) := by
  have hinv := hr.inv (SysInv.init hinit hL h0)
  intro leaf h1 h2
  obtain ⟨k, hk⟩ := hinv.tree.cover leaf h1 h2
  refine ⟨leaf / 2 ^ k, ⟨⟨k, rfl⟩, hk⟩, ?_⟩
  rintro m ⟨hm1, hm2⟩
  have hanc : IsAnc (leaf / 2 ^ k) leaf := ⟨k, rfl⟩
  rcases hm1.comparable hanc with hc | hc
  · exact hinv.tree.antichain m _ hm2 hk hc
  · exact (hinv.tree.antichain _ m hk hm2 hc).symm

theorem C6_coverage_witness :
    ∃! m : Nat, IsAnc m 11 ∧
      (BitMap_bit sampleAlloc2.tree ((m : Int) - 1) = true ∨ ∃ b ∈ sampleLive2, b.idx = (m : Int)) :=
  C6_coverage sample_init (by decide) sample_reach 11 (by decide) (by decide)

/-- C2 (failure is atomic): for every allocator state and every level
`≤ num_levels`, getBuddy returns; if it returns 0 the allocator it leaves
(bitmap and fields) is the one it was given, and malloc, when this was its
request, returns null with the allocator and the region unchanged. -/
theorem C2_failure_is_atomic (alloc : BuddyAllocator) (level : Int)
    (hl : level ≤ alloc.num_levels) :
    (∃ r alloc', BuddyAllocator_getBuddy alloc level = .done (r, alloc')) ∧
    (∀ alloc', BuddyAllocator_getBuddy alloc level = .done (0, alloc') → alloc' = alloc) ∧
    (∀ (heap : Heap) (size : Nat) (alloc' : BuddyAllocator), mallocLevel alloc size = level →
      BuddyAllocator_getBuddy alloc level = .done (0, alloc') →
      BuddyAllocator_malloc alloc heap size = .done (none, alloc, heap)) := by
  have key : (BuddyAllocator_getBuddy alloc level = .done (0, alloc)) ∨
      ∃ (n : Nat) (t' : BitMap), 1 ≤ n ∧
        BuddyAllocator_getBuddy alloc level = .done ((n : Int), { alloc with tree := t' }) := by
    by_cases h1 : level < 1
    · left
      unfold BuddyAllocator_getBuddy
      have : level.toNat + 1 = 0 + 1 := by omega
      rw [this]
      unfold getBuddyAux
      simp [h1]
    · obtain ⟨d, rfl⟩ : ∃ d : Nat, level = (d : Int) + 1 := ⟨(level - 1).toNat, by omega⟩
      have hb : ((d : Int) + 1).toNat + 1 = d + 2 := by omega
      unfold BuddyAllocator_getBuddy
      rw [hb]
      rcases getBuddyAux_spec d alloc (d + 2) hl (le_refl _) with ⟨hz, _⟩ | ⟨n, t', hg, hr⟩
      · exact Or.inl hz
      · exact Or.inr ⟨n, t', le_trans Nat.one_le_two_pow hg.level.1, hr⟩
  have hzero : ∀ alloc', BuddyAllocator_getBuddy alloc level = .done (0, alloc') → alloc' = alloc := by
    intro alloc' h
    rcases key with hz | ⟨n, t', hn, hr⟩
    · rw [hz] at h
      simp only [Outcome.done.injEq, Prod.mk.injEq, true_and] at h
      exact h.symm
    · rw [hr] at h
      simp only [Outcome.done.injEq, Prod.mk.injEq] at h
      omega
  refine ⟨?_, hzero, ?_⟩
  · rcases key with hz | ⟨n, t', _, hr⟩
    · exact ⟨_, _, hz⟩
    · exact ⟨_, _, hr⟩
  · intro heap size alloc' hlev h
    have := hzero alloc' h
    subst this
    unfold BuddyAllocator_malloc
    simp only [hlev, h]
    simp

theorem C2_failure_is_atomic_witness :
    (∃ r alloc', BuddyAllocator_getBuddy ⟨4, 1000, 16, List.replicate 15 false⟩ 4
      = .done (r, alloc')) ∧
    (∀ alloc', BuddyAllocator_getBuddy ⟨4, 1000, 16, List.replicate 15 false⟩ 4
      = .done (0, alloc') → alloc' = ⟨4, 1000, 16, List.replicate 15 false⟩) ∧
    (∀ (heap : Heap) (size : Nat) (alloc' : BuddyAllocator),
      mallocLevel ⟨4, 1000, 16, List.replicate 15 false⟩ size = 4 →
      BuddyAllocator_getBuddy ⟨4, 1000, 16, List.replicate 15 false⟩ 4 = .done (0, alloc') →
      BuddyAllocator_malloc ⟨4, 1000, 16, List.replicate 15 false⟩ heap size
        = .done (none, ⟨4, 1000, 16, List.replicate 15 false⟩, heap)) :=
  C2_failure_is_atomic ⟨4, 1000, 16, List.replicate 15 false⟩ 4 (by decide)

/-- Writing one bit changes that bit, when it is inside the array, and no other. -/
theorem bit_setBit (t : BitMap) (i j : Int) (v : Bool) :
    BitMap_bit (BitMap_setBit t i v) j
      = if i = j ∧ 0 ≤ i ∧ i < t.length then v else BitMap_bit t j := by
  by_cases hi : 0 ≤ i
  · have hs : BitMap_setBit t i v = mark t (i.toNat + 1) v := by
      unfold mark; congr 1; omega
    rw [hs]
    by_cases hj : 0 ≤ j
    · rw [bit_eq_isFree _ j hj, bit_eq_isFree _ j hj, isFree_mark]
      by_cases hc : i = j ∧ 0 ≤ i ∧ i < t.length
      · have : i.toNat + 1 = j.toNat + 1 ∧ 1 ≤ i.toNat + 1 ∧ i.toNat + 1 ≤ t.length := by omega
        rw [if_pos hc, if_pos this]
      · have : ¬ (i.toNat + 1 = j.toNat + 1 ∧ 1 ≤ i.toNat + 1 ∧ i.toNat + 1 ≤ t.length) := by omega
        rw [if_neg hc, if_neg this]
    · have hc : ¬ (i = j ∧ 0 ≤ i ∧ i < t.length) := by omega
      rw [if_neg hc]
      unfold BitMap_bit
      simp [hj]
  · have hc : ¬ (i = j ∧ 0 ≤ i ∧ i < t.length) := by omega
    rw [if_neg hc]
    unfold BitMap_setBit
    simp [hi]

/-- A granted node comes from a set bit on the level asked for or above it. -/
theorem Grants.exists_free {t t' : BitMap} {d n : Nat} (h : Grants t d n t') :
    ∃ m, 1 ≤ m ∧ m < 2 ^ (d + 1) ∧ isFree t m = true := by
  induction h with
  | hit d n h1 h2 hf _ => exact ⟨n, le_trans Nat.one_le_two_pow h1, h2, hf⟩
  | split d p t1 _ _ ih =>
    obtain ⟨m, h1, h2, h3⟩ := ih
    refine ⟨m, h1, ?_, h3⟩
    rw [pow_succ 2 (d + 1)]; omega

/-- The two ways getBuddy ends at a level `1 ≤ d + 1 ≤ num_levels`. -/
theorem getBuddy_cases (alloc : BuddyAllocator) (d : Nat) (hL : (d : Int) + 1 ≤ alloc.num_levels) :
    (BuddyAllocator_getBuddy alloc ((d : Int) + 1) = .done (0, alloc) ∧
        ∀ m, 1 ≤ m → m < 2 ^ (d + 1) → isFree alloc.tree m = false)
    ∨ ∃ (n : Nat) (t' : BitMap), Grants alloc.tree d n t' ∧
        BuddyAllocator_getBuddy alloc ((d : Int) + 1)
          = .done ((n : Int), { alloc with tree := t' }) := by
  have hb : ((d : Int) + 1).toNat + 1 = d + 2 := by omega
  unfold BuddyAllocator_getBuddy
  rw [hb]
  exact getBuddyAux_spec d alloc (d + 2) hL (le_refl _)

theorem shl1_succ_natCast (d : Nat) : shl1 ((d : Int) + 1) = 2 ^ (d + 1) := by
  have : (d : Int) + 1 = ((d + 1 : Nat) : Int) := by push_cast; ring
  rw [this, shl1_natCast]

theorem shl1_succ_pred_natCast (d : Nat) : shl1 ((d : Int) + 1 - 1) = 2 ^ d := by
  have : (d : Int) + 1 - 1 = (d : Int) := by ring
  rw [this, shl1_natCast]

/-- C11 (lowest-index tie-break): for every allocator state and level `l`
with `1 ≤ l ≤ num_levels`, if some node `m` of level `l` (index in
`[2^(l-1), 2^l)`) has bit 1, getBuddy(l) returns the smallest such index `n`,
clears exactly the bit of `n` and leaves every other bit and every field of
the allocator unchanged. -/
theorem C11_lowest_index_tie_break (alloc : BuddyAllocator) (level : Int) (m : Nat)
    (h1 : 1 ≤ level) (h2 : level ≤ alloc.num_levels)
    (hm1 : shl1 (level - 1) ≤ m) (hm2 : m < shl1 level)
    (hfree : BitMap_bit alloc.tree ((m : Int) - 1) = true) :
    ∃ n : Nat,
      BuddyAllocator_getBuddy alloc level
        = .done ((n : Int), { alloc with tree := BitMap_setBit alloc.tree ((n : Int) - 1) false }) ∧
      shl1 (level - 1) ≤ n ∧ n ≤ m ∧ BitMap_bit alloc.tree ((n : Int) - 1) = true ∧
      (∀ j : Nat, shl1 (level - 1) ≤ j → j < n → BitMap_bit alloc.tree ((j : Int) - 1) = false) ∧
      (∀ i : Int, BitMap_bit (BitMap_setBit alloc.tree ((n : Int) - 1) false) i
        = if i = (n : Int) - 1 then false else BitMap_bit alloc.tree i) := by
  obtain ⟨d, rfl⟩ : ∃ d : Nat, level = (d : Int) + 1 := ⟨(level - 1).toNat, by omega⟩
  rw [shl1_succ_pred_natCast] at hm1
  rw [shl1_succ_natCast] at hm2
  rw [shl1_succ_pred_natCast]
  have hmf : isFree alloc.tree m = true := hfree
  rcases getBuddy_cases alloc d h2 with ⟨_, hno⟩ | ⟨n, t', hg, hr⟩
  · have := hno m (le_trans Nat.one_le_two_pow hm1) hm2
    rw [hmf] at this
    exact absurd this (by decide)
  · have hhit : 2 ^ d ≤ n ∧ isFree alloc.tree n = true ∧
        (∀ j, 2 ^ d ≤ j → j < n → isFree alloc.tree j = false) ∧ t' = mark alloc.tree n false := by
      cases hg with
      | hit _ _ h3 h4 h5 h6 => exact ⟨h3, h5, h6, rfl⟩
      | split e p t1 hnone _ =>
        have := hnone m hm1 hm2
        rw [hmf] at this
        exact absurd this (by decide)
    obtain ⟨hn1, hnf, hlow, ht'⟩ := hhit
    refine ⟨n, ?_, hn1, ?_, hnf, hlow, ?_⟩
    · rw [hr, ht']; rfl
    · by_contra hc
      have := hlow m hm1 (by omega)
      rw [hmf] at this
      exact absurd this (by decide)
    · intro i
      rw [bit_setBit]
      have hr := isFree_range _ _ hnf
      by_cases hi : i = (n : Int) - 1
      · have : (n : Int) - 1 = i ∧ 0 ≤ (n : Int) - 1 ∧ (n : Int) - 1 < alloc.tree.length := by omega
        rw [if_pos this, if_pos hi]
      · have : ¬ ((n : Int) - 1 = i ∧ 0 ≤ (n : Int) - 1 ∧ (n : Int) - 1 < alloc.tree.length) := by
          omega
        rw [if_neg this, if_neg hi]

theorem C11_lowest_index_tie_break_witness :
    ∃ n : Nat,
      BuddyAllocator_getBuddy sampleAlloc2 2
        = .done ((n : Int),
            { sampleAlloc2 with tree := BitMap_setBit sampleAlloc2.tree ((n : Int) - 1) false }) ∧
      shl1 (2 - 1) ≤ n ∧ n ≤ 3 ∧ BitMap_bit sampleAlloc2.tree ((n : Int) - 1) = true ∧
      (∀ j : Nat, shl1 (2 - 1) ≤ j → j < n →
        BitMap_bit sampleAlloc2.tree ((j : Int) - 1) = false) ∧
      (∀ i : Int, BitMap_bit (BitMap_setBit sampleAlloc2.tree ((n : Int) - 1) false) i
        = if i = (n : Int) - 1 then false else BitMap_bit sampleAlloc2.tree i) :=
  C11_lowest_index_tie_break sampleAlloc2 2 3 (by decide) (by decide) (by decide) (by decide)
    (by decide)

/-- C17 (exact failure condition): for every allocator state and level `l`
with `1 ≤ l ≤ num_levels`, getBuddy(l) returns, and it returns 0 if and only
if no node with index in `[1, 2^l)` has bit 1; malloc with this level returns
null under exactly the same condition. -/
theorem C17_exact_failure_condition (alloc : BuddyAllocator) (level : Int)
    (h1 : 1 ≤ level) (h2 : level ≤ alloc.num_levels) :
    (∃ r alloc', BuddyAllocator_getBuddy alloc level = .done (r, alloc') ∧
      (r = 0 ↔ ∀ m : Nat, 1 ≤ m → m < shl1 level →
        BitMap_bit alloc.tree ((m : Int) - 1) = false)) ∧
    (∀ (heap : Heap) (size : Nat), mallocLevel alloc size = level →
      ((∃ alloc' heap', BuddyAllocator_malloc alloc heap size = .done (none, alloc', heap')) ↔
        ∀ m : Nat, 1 ≤ m → m < shl1 level → BitMap_bit alloc.tree ((m : Int) - 1) = false)) := by
  obtain ⟨d, rfl⟩ : ∃ d : Nat, level = (d : Int) + 1 := ⟨(level - 1).toNat, by omega⟩
  rw [shl1_succ_natCast]
  have hgrant : ∀ (n : Nat) (t' : BitMap), Grants alloc.tree d n t' →
      ¬ ∀ m : Nat, 1 ≤ m → m < 2 ^ (d + 1) → BitMap_bit alloc.tree ((m : Int) - 1) = false := by
    intro n t' hg hno
    obtain ⟨m, hm1, hm2, hm3⟩ := hg.exists_free
    have := hno m hm1 hm2
    have hm3' : BitMap_bit alloc.tree ((m : Int) - 1) = true := hm3
    rw [hm3'] at this
    exact absurd this (by decide)
  constructor
  · rcases getBuddy_cases alloc d h2 with ⟨hz, hno⟩ | ⟨n, t', hg, hr⟩
    · exact ⟨0, alloc, hz, ⟨fun _ => hno, fun _ => rfl⟩⟩
    · refine ⟨(n : Int), _, hr, ⟨?_, fun hno => absurd hno (hgrant n t' hg)⟩⟩
      intro hn0
      have := le_trans Nat.one_le_two_pow hg.level.1
      omega
  · intro heap size hlev
    rcases malloc_cases alloc heap size with ⟨hnull, _, hno⟩ | ⟨d', n, t', hlev', hg, _, hm⟩
    · have hno' := hno (by rw [hlev]; omega)
      rw [hlev] at hno'
      have : ((d : Int) + 1).toNat = d + 1 := by omega
      rw [this] at hno'
      exact ⟨fun _ => hno', fun _ => ⟨_, _, hnull⟩⟩
    · have hdd : d' = d := by omega
      subst hdd
      constructor
      · rintro ⟨a', h', he⟩
        rw [hm] at he
        simp at he
      · intro hno
        exact absurd hno (hgrant n t' hg)

theorem C17_exact_failure_condition_witness :
    (∃ r alloc', BuddyAllocator_getBuddy sampleAlloc2 3 = .done (r, alloc') ∧
      (r = 0 ↔ ∀ m : Nat, 1 ≤ m → m < shl1 3 →
        BitMap_bit sampleAlloc2.tree ((m : Int) - 1) = false)) ∧
    (∀ (heap : Heap) (size : Nat), mallocLevel sampleAlloc2 size = 3 →
      ((∃ alloc' heap', BuddyAllocator_malloc sampleAlloc2 heap size
          = .done (none, alloc', heap')) ↔
        ∀ m : Nat, 1 ≤ m → m < shl1 3 →
          BitMap_bit sampleAlloc2.tree ((m : Int) - 1) = false)) :=
  C17_exact_failure_condition sampleAlloc2 3 (by decide) (by decide)

/-- C18 (maximal coalescing): in every state reachable from a freshly
initialised allocator by an admissible sequence of malloc/free calls there is
no node index `i ≥ 2` such that both `i` and `buddyIdx(i)` have bit 1. -/
theorem C18_no_free_buddy_pair {MAX_LEVELS sizeofBitMap num_levels : Int}
    {storage : Nat → Bool} {buffer_size memory : Int} {min_bucket_size : Nat}
    {a0 a : BuddyAllocator} {h0 h : Heap} {live : List Block}
    (hinit : BuddyAllocator_init MAX_LEVELS sizeofBitMap num_levels storage buffer_size memory
      min_bucket_size = .done a0)
    (hL : 1 ≤ num_levels) (hr : Reach a0 h0 a h live) (i : Int) (hi : 2 ≤ i) :
    ¬ (BitMap_bit a.tree (i - 1) = true ∧ BitMap_bit a.tree (buddyIdx i - 1) = true) := by
  have hinv := hr.inv (SysInv.init hinit hL h0)
  obtain ⟨n, rfl⟩ : ∃ n : Nat, i = (n : Int) := ⟨i.toNat, by omega⟩
  have hn : 2 ≤ n := by omega
  rw [buddyIdx_eq_buddyNode n (by omega)]
  rintro ⟨hf1, hf2⟩
  have hf1' : isFree a.tree n = true := hf1
  have hf2' : isFree a.tree (buddyNode n) = true := hf2
  rcases buddyNode_cases n hn with ⟨e1, e2⟩ | ⟨e1, e2⟩
  · exact hinv.tree.nobuddies (n / 2) ⟨by rw [← e1]; exact hf1', by rw [← e2]; exact hf2'⟩
  · exact hinv.tree.nobuddies (n / 2) ⟨by rw [← e2]; exact hf2', by rw [← e1]; exact hf1'⟩

theorem C18_no_free_buddy_pair_witness :
    ¬ (BitMap_bit sampleAlloc2.tree (3 - 1) = true ∧
       BitMap_bit sampleAlloc2.tree (buddyIdx 3 - 1) = true) :=
  C18_no_free_buddy_pair sample_init (by decide) sample_reach 3 (by decide)

theorem levelIdx_eq_log (i : Nat) (hi : 1 ≤ i) : levelIdx i = (Nat.log 2 i : Nat) + 1 := by
  unfold levelIdx
  rw [floorLog2_of_pos i (by omega)]

/-- C19 (bounded recursion): for every level `l` with `2 ≤ l ≤ num_levels` the
recursive call of getBuddy is made at `levelIdx(parentIdx(2^(l-1))) = l - 1`
and getBuddy(l) returns within `l + 1` nested calls; for every node index
`i ≥ 1`, releaseBuddy(i) returns within `levelIdx(i)` nested calls, each made
on `parentIdx` of the previous index. -/
theorem C19_bounded_recursion (alloc : BuddyAllocator) (l : Int) (i : Nat)
    (h1 : 2 ≤ l) (h2 : l ≤ alloc.num_levels) (hi : 1 ≤ i) :
    levelIdx (parentIdx ((shl1 (l - 1) : Nat) : Int)).toNat = l - 1 ∧
    (∃ r alloc', getBuddyAux (l.toNat + 1) alloc l = .done (r, alloc')) ∧
    (∃ alloc', releaseBuddyAux (levelIdx i).toNat alloc (i : Int) = .done alloc') ∧
    (∀ (budget : Nat) (a : BuddyAllocator) (idx : Int),
      idx ≠ 1 ∧ BitMap_bit a.tree (buddyIdx idx - 1) = true →
      releaseBuddyAux (budget + 1) a idx
        = releaseBuddyAux budget
            { a with tree := BitMap_setBit a.tree (buddyIdx idx - 1) false } (parentIdx idx)) := by
  obtain ⟨d, rfl⟩ : ∃ d : Nat, l = (d : Int) + 1 := ⟨(l - 1).toNat, by omega⟩
  have hd : d ≠ 0 := by omega
  refine ⟨?_, ?_, ?_, ?_⟩
  · have := getBuddy_rec_level d
    rw [if_neg hd] at this
    rw [this]; ring
  · have hb : ((d : Int) + 1).toNat + 1 = d + 2 := by omega
    rw [hb]
    rcases getBuddyAux_spec d alloc (d + 2) h2 (le_refl _) with ⟨hz, _⟩ | ⟨n, t', _, hr⟩
    · exact ⟨_, _, hz⟩
    · exact ⟨_, _, hr⟩
  · have hlev : (levelIdx i).toNat = Nat.log 2 i + 1 := by
      rw [levelIdx_eq_log i hi]; omega
    rw [hlev]
    obtain ⟨t', _, he⟩ := releaseBuddyAux_spec i alloc (Nat.log 2 i + 1) hi (le_refl _)
    exact ⟨_, he⟩
  · intro budget a idx hc
    conv_lhs => unfold releaseBuddyAux
    simp only [hc, ne_eq, not_false_eq_true, and_self, if_true]

theorem C19_bounded_recursion_witness :
    levelIdx (parentIdx ((shl1 (4 - 1) : Nat) : Int)).toNat = 4 - 1 ∧
    (∃ r alloc', getBuddyAux ((4 : Int).toNat + 1) sampleAlloc 4 = .done (r, alloc')) ∧
    (∃ alloc', releaseBuddyAux (levelIdx 8).toNat sampleAlloc ((8 : Nat) : Int) = .done alloc') ∧
    (∀ (budget : Nat) (a : BuddyAllocator) (idx : Int),
      idx ≠ 1 ∧ BitMap_bit a.tree (buddyIdx idx - 1) = true →
      releaseBuddyAux (budget + 1) a idx
        = releaseBuddyAux budget
            { a with tree := BitMap_setBit a.tree (buddyIdx idx - 1) false } (parentIdx idx)) :=
  C19_bounded_recursion sampleAlloc 4 8 (by decide) (by decide) (by decide)

/-- C12 (init state): for `1 ≤ num_levels < MAX_LEVELS` and a buffer that holds
the `BitMap` struct and the bytes of `2^num_levels - 1` bits, init returns; the
bitmap then has `2^num_levels - 1` bits, bit 0 (node 1, the root) is 1, every
bit `i` with `1 ≤ i < 2^num_levels - 1` is 0, and the allocator stores
`num_levels`, `min_bucket_size` and `memory` as passed. -/
theorem C12_init_state (MAX_LEVELS sizeofBitMap num_levels : Int) (storage : Nat → Bool)
    (buffer_size memory : Int) (min_bucket_size : Nat)
    (h1 : 1 ≤ num_levels) (h2 : num_levels < MAX_LEVELS)
    (h3 : sizeofBitMap + BitMap_getBytes ((shl1 num_levels : Int) - 1) ≤ buffer_size) :
    ∃ a0, BuddyAllocator_init MAX_LEVELS sizeofBitMap num_levels storage buffer_size memory
        min_bucket_size = .done a0 ∧
      (a0.tree.length : Int) = (shl1 num_levels : Int) - 1 ∧
      BitMap_bit a0.tree 0 = true ∧
      (∀ i : Int, 1 ≤ i → i < (shl1 num_levels : Int) - 1 → BitMap_bit a0.tree i = false) ∧
      a0.num_levels = num_levels ∧ a0.min_bucket_size = min_bucket_size ∧
      a0.memory = memory := by
  have hcalc : BuddyAllocator_calcSize sizeofBitMap num_levels ≤ buffer_size := by
    have hs := shl1_pred num_levels h1
    have hp := shl1_pos (num_levels - 1)
    unfold BuddyAllocator_calcSize
    unfold BitMap_getBytes at h3 ⊢
    simp only
    omega
  have hdone : ∃ a0, BuddyAllocator_init MAX_LEVELS sizeofBitMap num_levels storage buffer_size
      memory min_bucket_size = .done a0 := by
    unfold BuddyAllocator_init
    rw [if_neg (not_not.2 h2), if_neg (not_not.2 hcalc)]
    exact ⟨_, rfl⟩
  obtain ⟨a0, ha0⟩ := hdone
  obtain ⟨e1, e2, e3, e4⟩ := init_spec ha0 h1
  have hpow : 2 ≤ 2 ^ num_levels.toNat := by
    calc 2 = 2 ^ 1 := by norm_num
      _ ≤ 2 ^ num_levels.toNat := Nat.pow_le_pow_right (by decide) (by omega)
  have hsh : shl1 num_levels = 2 ^ num_levels.toNat := rfl
  have hfree := isFree_initTree num_levels.toNat
  refine ⟨a0, ha0, ?_, ?_, ?_, e1, e3, e2⟩
  · have hlen : a0.tree.length = 2 ^ num_levels.toNat - 1 := by
      rw [e4]
      simp only [List.length_cons, List.length_replicate]
      omega
    rw [hlen, hsh]
    omega
  · rw [e4, bit_eq_isFree _ 0 (le_refl _)]
    exact (hfree _).2 rfl
  · intro i hi1 _
    rw [e4, bit_eq_isFree _ i (by omega)]
    cases hf : isFree (true :: List.replicate (2 ^ num_levels.toNat - 2) false) (i.toNat + 1) with
    | false => rfl
    | true =>
      have := (hfree _).1 hf
      omega

theorem C12_init_state_witness :
    ∃ a0, BuddyAllocator_init 16 16 4 (fun _ => false) 100 1000 16 = .done a0 ∧
      (a0.tree.length : Int) = (shl1 4 : Int) - 1 ∧
      BitMap_bit a0.tree 0 = true ∧
      (∀ i : Int, 1 ≤ i → i < (shl1 4 : Int) - 1 → BitMap_bit a0.tree i = false) ∧
      a0.num_levels = 4 ∧ a0.min_bucket_size = 16 ∧ a0.memory = 1000 :=
  C12_init_state 16 16 4 (fun _ => false) 100 1000 16 (by decide) (by decide) (by decide)

/-- C13, evaluated on the code: for 4 levels `BuddyAllocator_calcSize` asks for
`sizeof(BitMap) + 1` bytes (it sizes `1 << 3 = 8` bits), while the `2^4 - 1 = 15`
bits that `BuddyAllocator_init` writes need `sizeof(BitMap) + 2` bytes; bit 14,
which init clears, lies outside a buffer of `calcSize` bytes. -/
theorem C13_calcSize_undersized (sizeofBitMap : Int) :
    BuddyAllocator_calcSize sizeofBitMap 4 = sizeofBitMap + 1 ∧
    sizeofBitMap + BitMap_getBytes ((shl1 4 : Int) - 1) = sizeofBitMap + 2 ∧
    BuddyAllocator_calcSize sizeofBitMap 4 < sizeofBitMap + BitMap_getBytes ((shl1 4 : Int) - 1) ∧
    8 * (BuddyAllocator_calcSize sizeofBitMap 4 - sizeofBitMap) ≤ 14 := by
  have h1 : BuddyAllocator_calcSize sizeofBitMap 4 = sizeofBitMap + 1 := by
    unfold BuddyAllocator_calcSize
    have : BitMap_getBytes ((shl1 (4 - 1) : Nat) : Int) = 1 := by decide
    simp only [this]
    ring
  have h2 : BitMap_getBytes ((shl1 4 : Int) - 1) = 2 := by decide
  rw [h1, h2]
  refine ⟨rfl, rfl, by omega, by omega⟩

/-- C20, evaluated on the code: for node 5 (level 3, whose first node is 4)
`startIdx` returns `5 - (1 << 3) = -3`. -/
theorem C20_startIdx_at_5 :
    startIdx 5 = -3 ∧ levelIdx 5 = 3 ∧ ((shl1 (levelIdx 5 - 1) : Nat) : Int) = 4 ∧
    levelIdx 5 = (Nat.log 2 5 : Nat) + 1 := by
  refine ⟨by decide, by decide, by decide, ?_⟩
  exact levelIdx_eq_log 5 (by decide)

/-- The result of `startIdx` is negative on every node index: it subtracts the
first index of the next level, `2^levelIdx(i)`, which exceeds `i`. -/
theorem startIdx_neg (i : Nat) (hi : 1 ≤ i) : startIdx (i : Int) < 0 := by
  unfold startIdx
  rw [Int.toNat_ofNat, levelIdx_eq_log i hi]
  have h1 : shl1 (((Nat.log 2 i : Nat) : Int) + 1) = 2 ^ (Nat.log 2 i + 1) :=
    shl1_succ_natCast _
  rw [h1]
  have := Nat.lt_pow_succ_log_self (by decide : 1 < 2) i
  have : (i : Int) < ((2 ^ (Nat.log 2 i + 1) : Nat) : Int) := by exact_mod_cast this
  omega

/-! ## The split cascade and its undoing -/

/-- A grant at level `d + 1` leaves the bits of the deeper levels as they were. -/
theorem Grants.unchanged_below {t t' : BitMap} {d n : Nat} (h : Grants t d n t') (m : Nat)
    (hm : 2 ^ (d + 1) ≤ m) : isFree t' m = isFree t m := by
  induction h with
  | hit d n _ h2 _ _ => exact isFree_mark_ne _ _ _ _ (by omega)
  | split d p t1 _ hg ih =>
    have hp := hg.level.2
    rw [pow_succ 2 (d + 1)] at hm
    rw [isFree_mark_ne _ _ _ _ (by omega)]
    exact ih (by omega)

/-- The split cascade in closed form: when `p` is the first set bit of level
`kd + 1` and the levels below it down to `d + 1` have no set bit, the grant at
level `d + 1` is `p * 2^(d - kd)`; the bit of `p` is cleared, the bits of
`p * 2^j + 1` for `j = 1 .. d - kd` are set, nothing else changes. -/
theorem Grants.chain {t t' : BitMap} {d n : Nat} (hg : Grants t d n t') (kd p : Nat)
    (hkd : kd ≤ d) (hbits : 2 ^ (d + 1) ≤ t.length + 1)
    (hp1 : 2 ^ kd ≤ p) (hp2 : p < 2 ^ (kd + 1)) (hpf : isFree t p = true)
    (hplow : ∀ j, 2 ^ kd ≤ j → j < p → isFree t j = false)
    (hnone : ∀ m, 2 ^ (kd + 1) ≤ m → m < 2 ^ (d + 1) → isFree t m = false) :
    n = p * 2 ^ (d - kd) ∧ isFree t' p = false ∧
    (∀ j, 1 ≤ j → j ≤ d - kd → isFree t' (p * 2 ^ j + 1) = true) ∧
    (∀ m, m ≠ p → (∀ j, 1 ≤ j → j ≤ d - kd → m ≠ p * 2 ^ j + 1) → isFree t' m = isFree t m) := by
  induction hg with
  | hit d n h1 h2 hf hlow =>
    have hkeq : kd = d := by
      by_contra hne
      have hlt : kd + 1 ≤ d := by omega
      have := hnone n (le_trans (Nat.pow_le_pow_right (by decide) hlt) h1) h2
      rw [hf] at this
      exact absurd this (by decide)
    subst hkeq
    have hnp : n = p := by
      rcases Nat.lt_trichotomy n p with h | h | h
      · have := hplow n h1 h
        rw [hf] at this
        exact absurd this (by decide)
      · exact h
      · have := hlow p hp1 h
        rw [hpf] at this
        exact absurd this (by decide)
    subst hnp
    have hr := isFree_range _ _ hf
    refine ⟨by simp, isFree_mark_self _ _ _ hr.1 hr.2, ?_, ?_⟩
    · intro j hj1 hj2; omega
    · intro m hm _
      exact isFree_mark_ne _ _ _ _ (Ne.symm hm)
  | split d q t1 hno hg ih =>
    have hkd' : kd ≤ d := by
      by_contra hne
      have hkeq : kd = d + 1 := by omega
      subst hkeq
      have := hno p hp1 hp2
      rw [hpf] at this
      exact absurd this (by decide)
    have hpow : 2 ^ (d + 1 + 1) = 2 * 2 ^ (d + 1) := by rw [pow_succ]; ring
    obtain ⟨hq, hclr, hset, hrest⟩ := ih hkd' (by omega) (fun m h1 h2 => hnone m h1 (by omega))
    have hs : d + 1 - kd = (d - kd) + 1 := by omega
    have hq2 : 2 * q + 1 = p * 2 ^ (d - kd + 1) + 1 := by
      rw [hq, pow_succ]; ring
    have hqlev := hg.level
    have hp0 : 1 ≤ p := le_trans Nat.one_le_two_pow hp1
    have hqp : p ≤ q := by
      rw [hq]
      exact Nat.le_mul_of_pos_right _ (by positivity)
    have hlen1 : t1.length = t.length := hg.length_eq
    have hin : 2 * q + 1 ≤ t1.length := by omega
    rw [hs]
    refine ⟨?_, ?_, ?_, ?_⟩
    · rw [hq, pow_succ]; ring
    · rw [isFree_mark_ne _ _ _ _ (by omega)]
      exact hclr
    · intro j hj1 hj2
      by_cases hj : j = d - kd + 1
      · subst hj
        rw [← hq2]
        exact isFree_mark_self _ _ _ (by omega) hin
      · have hne : 2 * q + 1 ≠ p * 2 ^ j + 1 := by
          rw [hq2]
          intro heq
          have h1 : p * 2 ^ (d - kd + 1) = p * 2 ^ j := by omega
          have h2 : 2 ^ (d - kd + 1) = 2 ^ j := Nat.eq_of_mul_eq_mul_left hp0 h1
          exact hj (Nat.pow_right_injective (le_refl 2) h2).symm
        rw [isFree_mark_ne _ _ _ _ hne]
        exact hset j hj1 (by omega)
    · intro m hm hall
      have hne : 2 * q + 1 ≠ m := by
        rw [hq2]
        exact fun h => hall (d - kd + 1) (by omega) (le_refl _) h.symm
      rw [isFree_mark_ne _ _ _ _ hne]
      exact hrest m hm (fun j hj1 hj2 => hall j hj1 (by omega))

theorem mark_mark_restore (t : BitMap) (n : Nat) (v : Bool) (h : isFree t n = v) :
    mark (mark t n (!v)) n v = t := by
  apply bitmap_ext
  · rw [length_mark, length_mark]
  · intro m
    rw [isFree_mark, length_mark, isFree_mark]
    by_cases hc : n = m ∧ 1 ≤ n ∧ n ≤ t.length
    · rw [if_pos hc, ← hc.1, h]
    · rw [if_neg hc, if_neg hc]

/-- Releasing the node that a grant has just handed out gives the bitmap
back, provided no two buddies were both free before the grant. -/
theorem Grants.release_restores {t t' : BitMap} {d n : Nat} (hg : Grants t d n t')
    (hbits : 2 ^ (d + 1) ≤ t.length + 1)
    (hnb : ∀ q, ¬ (isFree t (2 * q) = true ∧ isFree t (2 * q + 1) = true))
    (t'' : BitMap) (hr : Releases t' n t'') : t'' = t := by
  induction hg generalizing t'' with
  | hit d n h1 h2 hf _ =>
    have hn1 : 1 ≤ n := le_trans Nat.one_le_two_pow h1
    generalize hm : mark t n false = tm at hr
    cases hr with
    | stop _ _ _ =>
      rw [← hm]
      exact mark_mark_restore t n true hf
    | merge _ _ _ hne hb _ =>
      exfalso
      rw [← hm] at hb
      have hb' := isFree_mark_false_imp _ _ _ hb
      rcases buddyNode_cases n (by omega) with ⟨e1, e2⟩ | ⟨e1, e2⟩
      · exact hnb (n / 2) ⟨by rw [← e1]; exact hf, by rw [← e2]; exact hb'⟩
      · exact hnb (n / 2) ⟨by rw [← e2]; exact hb', by rw [← e1]; exact hf⟩
  | split d q t1 hno hg ih =>
    have hpow : 2 ^ (d + 1 + 1) = 2 * 2 ^ (d + 1) := by rw [pow_succ]; ring
    have hqlev := hg.level
    have hq0 : 1 ≤ q := le_trans Nat.one_le_two_pow hqlev.1
    have hlen1 : t1.length = t.length := hg.length_eq
    have hin : 2 * q + 1 ≤ t1.length := by omega
    have hbud : buddyNode (2 * q) = 2 * q + 1 := by
      unfold buddyNode; split_ifs <;> omega
    have hhalf : 2 * q / 2 = q := by omega
    have hpow2 : 2 ^ (d + 2) = 2 * 2 ^ (d + 1) := by rw [pow_succ 2 (d + 1)]; ring
    have hwas : isFree t1 (2 * q + 1) = false := by
      rw [hg.unchanged_below _ (by omega)]
      exact hno _ (by omega) (by omega)
    generalize hm : mark t1 (2 * q + 1) true = tm at hr
    generalize hn : 2 * q = nn at hr
    cases hr with
    | stop _ _ hs =>
      exfalso
      rw [← hn, ← hm, hbud, isFree_mark_self _ _ _ (by omega) hin] at hs
      rcases hs with h | h
      · omega
      · exact absurd h (by decide)
    | merge _ _ _ _ _ hrel =>
      rw [← hn, ← hm, hbud, hhalf] at hrel
      have : mark (mark t1 (2 * q + 1) true) (2 * q + 1) false = t1 :=
        mark_mark_restore t1 (2 * q + 1) false hwas
      rw [this] at hrel
      exact ih (by omega) t'' hrel

/-- C15 (split cascade): for every allocator state whose bitmap holds the
levels `1..l`, and levels `1 ≤ k ≤ l ≤ num_levels` such that no node of levels
`k+1..l` has bit 1 and `p` is the lowest-index node with bit 1 at level `k`,
getBuddy(l) returns `p * 2^(l-k)`, clears the bit of `p`, sets the bits of the
nodes `p * 2^j + 1` for `j = 1..l-k`, and leaves every other bit and the fields
of the allocator unchanged. -/
theorem C15_split_cascade (alloc : BuddyAllocator) (k l : Int) (p : Nat)
    (hk : 1 ≤ k) (hkl : k ≤ l) (hl : l ≤ alloc.num_levels)
    (hbits : shl1 l ≤ alloc.tree.length + 1)
    (hp1 : shl1 (k - 1) ≤ p) (hp2 : p < shl1 k)
    (hpf : BitMap_bit alloc.tree ((p : Int) - 1) = true)
    (hplow : ∀ j : Nat, shl1 (k - 1) ≤ j → j < p → BitMap_bit alloc.tree ((j : Int) - 1) = false)
    (hnone : ∀ m : Nat, shl1 k ≤ m → m < shl1 l → BitMap_bit alloc.tree ((m : Int) - 1) = false) :
    ∃ t' : BitMap,
      BuddyAllocator_getBuddy alloc l
        = .done (((p * 2 ^ (l - k).toNat : Nat) : Int), { alloc with tree := t' }) ∧
      BitMap_bit t' ((p : Int) - 1) = false ∧
      (∀ j : Nat, 1 ≤ j → j ≤ (l - k).toNat →
        BitMap_bit t' (((p * 2 ^ j + 1 : Nat) : Int) - 1) = true) ∧
      (∀ m : Nat, m ≠ p → (∀ j : Nat, 1 ≤ j → j ≤ (l - k).toNat → m ≠ p * 2 ^ j + 1) →
        BitMap_bit t' ((m : Int) - 1) = BitMap_bit alloc.tree ((m : Int) - 1)) := by
  obtain ⟨kd, rfl⟩ : ∃ kd : Nat, k = (kd : Int) + 1 := ⟨(k - 1).toNat, by omega⟩
  obtain ⟨d, rfl⟩ : ∃ d : Nat, l = (d : Int) + 1 := ⟨(l - 1).toNat, by omega⟩
  have hkd : kd ≤ d := by omega
  have hsub : ((d : Int) + 1 - ((kd : Int) + 1)).toNat = d - kd := by omega
  rw [shl1_succ_pred_natCast] at hp1 hplow
  rw [shl1_succ_natCast] at hp2 hnone hbits
  rw [shl1_succ_natCast] at hnone
  rw [hsub]
  rcases getBuddy_cases alloc d hl with ⟨_, hno⟩ | ⟨n, t', hg, hr⟩
  · have := hno p (le_trans Nat.one_le_two_pow hp1)
      (lt_of_lt_of_le hp2 (Nat.pow_le_pow_right (by decide) (by omega)))
    have hpf' : isFree alloc.tree p = true := hpf
    rw [hpf'] at this
    exact absurd this (by decide)
  · obtain ⟨hn, h1, h2, h3⟩ := hg.chain kd p hkd hbits hp1 hp2 hpf hplow hnone
    refine ⟨t', ?_, h1, h2, h3⟩
    rw [hr, hn]

theorem C15_split_cascade_witness :
    ∃ t' : BitMap,
      BuddyAllocator_getBuddy sampleAlloc 4
        = .done (((1 * 2 ^ ((4 : Int) - 1).toNat : Nat) : Int), { sampleAlloc with tree := t' }) ∧
      BitMap_bit t' (((1 : Nat) : Int) - 1) = false ∧
      (∀ j : Nat, 1 ≤ j → j ≤ ((4 : Int) - 1).toNat →
        BitMap_bit t' (((1 * 2 ^ j + 1 : Nat) : Int) - 1) = true) ∧
      (∀ m : Nat, m ≠ 1 → (∀ j : Nat, 1 ≤ j → j ≤ ((4 : Int) - 1).toNat → m ≠ 1 * 2 ^ j + 1) →
        BitMap_bit t' ((m : Int) - 1) = BitMap_bit sampleAlloc.tree ((m : Int) - 1)) :=
  C15_split_cascade sampleAlloc 1 4 1 (by decide) (by decide) (by decide) (by decide)
    (by decide) (by decide) (by decide)
    (fun j h1 h2 => absurd h1 (by
      have : shl1 (1 - 1) = 1 := by decide
      omega))
    (fun m h1 h2 => by
      have e1 : shl1 1 = 2 := by decide
      have e2 : shl1 4 = 16 := by decide
      rw [e1] at h1
      rw [e2] at h2
      have hm : isFree sampleAlloc.tree m = true ↔ m = 1 := isFree_initTree 4 m
      cases hf : isFree sampleAlloc.tree m with
      | false => exact hf
      | true => have := hm.1 hf; omega)

/-- C16 (free undoes malloc): in every state reachable from a freshly
initialised allocator by an admissible sequence of malloc/free calls, if
malloc(size) succeeds and returns `p`, the immediately following free(p)
returns and restores the allocator, hence the bitmap bit for bit, to what it
was before the malloc. -/
theorem C16_free_undoes_malloc {MAX_LEVELS sizeofBitMap num_levels : Int}
    {storage : Nat → Bool} {buffer_size memory : Int} {min_bucket_size : Nat}
    {a0 a : BuddyAllocator} {h0 h : Heap} {live : List Block}
    (hinit : BuddyAllocator_init MAX_LEVELS sizeofBitMap num_levels storage buffer_size memory
      min_bucket_size = .done a0)
    (hL : 1 ≤ num_levels) (hr : Reach a0 h0 a h live)
    (size : Nat) (p : Int) (a' : BuddyAllocator) (h' : Heap)
    (hm : BuddyAllocator_malloc a h size = .done (some p, a', h')) :
    BuddyAllocator_free a' h' p = .done a ∧
    ∀ a'', BuddyAllocator_free a' h' p = .done a'' → a''.tree = a.tree := by
  have hinv := hr.inv (SysInv.init hinit hL h0)
  have key : BuddyAllocator_free a' h' p = .done a := by
    rcases malloc_cases a h size with ⟨hnull, _, _⟩ | ⟨d, n, t', hlev, hg, _, hm'⟩
    · rw [hnull] at hm
      simp at hm
    · rw [hm'] at hm
      simp only [Outcome.done.injEq, Prod.mk.injEq, Option.some.injEq] at hm
      obtain ⟨hp, ha, hh⟩ := hm
      subst hp ha hh
      have hle := mallocLevel_le a size
      rw [hlev, hinv.levels] at hle
      have hd : d + 1 ≤ num_levels.toNat := by omega
      obtain ⟨hn1, hn2⟩ := hg.level
      have hpow : 2 ^ (d + 1) ≤ 2 ^ num_levels.toNat := Nat.pow_le_pow_right (by decide) hd
      have hhead : Function.update h (a.memory + blockOffset a ((d : Int) + 1) (n : Int)) (n : Int)
          (a.memory + blockOffset a ((d : Int) + 1) (n : Int) + sizeof_int - sizeof_int)
          = (n : Int) := by
        have : a.memory + blockOffset a ((d : Int) + 1) (n : Int) + sizeof_int - sizeof_int
            = a.memory + blockOffset a ((d : Int) + 1) (n : Int) := by ring
        rw [this, Function.update_same]
      obtain ⟨t'', hrel, hf⟩ := free_spec { a with tree := t' } _ _ num_levels.toNat n
        hinv.levels hhead (le_trans Nat.one_le_two_pow hn1) (by omega)
      have hone : 1 ≤ 2 ^ num_levels.toNat := Nat.one_le_two_pow
      have hrestore := hg.release_restores
        (by rw [hinv.tree.length]; omega) hinv.tree.nobuddies t'' hrel
      rw [hf, hrestore]
  refine ⟨key, ?_⟩
  intro a'' ha''
  rw [key] at ha''
  simp only [Outcome.done.injEq] at ha''
  rw [ha'']

theorem C16_free_undoes_malloc_witness :
    BuddyAllocator_free
        ⟨4, 1000, 16, [false, false, true, false, true, false, false, false, true, false, false,
          false, false, false, false]⟩
        (Function.update sampleHeap 1000 8) 1004 = .done sampleAlloc ∧
    ∀ a'', BuddyAllocator_free
        ⟨4, 1000, 16, [false, false, true, false, true, false, false, false, true, false, false,
          false, false, false, false]⟩
        (Function.update sampleHeap 1000 8) 1004 = .done a'' → a''.tree = sampleAlloc.tree :=
  C16_free_undoes_malloc sample_init (by decide) Reach.init 1 1004
    ⟨4, 1000, 16, [false, false, true, false, true, false, false, false, true, false, false,
      false, false, false, false]⟩
    (Function.update sampleHeap 1000 8) rfl

/-- The split cascade on a freshly initialised allocator: getBuddy(l) returns
`2^(l-1)` and leaves bit 1 exactly on the nodes `2^j + 1` for `j = 1..l-1`
(nodes 3, 5, 9 for `l = 4`). -/
theorem getBuddy_fresh {MAX_LEVELS sizeofBitMap num_levels : Int} {storage : Nat → Bool}
    {buffer_size memory : Int} {min_bucket_size : Nat} {a0 : BuddyAllocator}
    (hinit : BuddyAllocator_init MAX_LEVELS sizeofBitMap num_levels storage buffer_size memory
      min_bucket_size = .done a0)
    (l : Int) (h1 : 1 ≤ l) (h2 : l ≤ num_levels) :
    ∃ t' : BitMap,
      BuddyAllocator_getBuddy a0 l = .done (((shl1 (l - 1) : Nat) : Int), { a0 with tree := t' }) ∧
      ∀ m : Nat, BitMap_bit t' ((m : Int) - 1) = true ↔
        ∃ j : Nat, 1 ≤ j ∧ j ≤ (l - 1).toNat ∧ m = 2 ^ j + 1 := by
  obtain ⟨e1, _, _, e4⟩ := init_spec hinit (by omega)
  obtain ⟨d, rfl⟩ : ∃ d : Nat, l = (d : Int) + 1 := ⟨(l - 1).toNat, by omega⟩
  have hfree : ∀ m, isFree a0.tree m = true ↔ m = 1 := by
    intro m; rw [e4]; exact isFree_initTree _ m
  have hlen : a0.tree.length = 2 ^ num_levels.toNat - 1 := by
    have hpow : 2 ≤ 2 ^ num_levels.toNat := by
      calc 2 = 2 ^ 1 := by norm_num
        _ ≤ 2 ^ num_levels.toNat := Nat.pow_le_pow_right (by decide) (by omega)
    rw [e4]
    simp only [List.length_cons, List.length_replicate]
    omega
  have hpow : 2 ^ (d + 1) ≤ 2 ^ num_levels.toNat := Nat.pow_le_pow_right (by decide) (by omega)
  have hsub : ((d : Int) + 1 - 1).toNat = d := by omega
  rw [shl1_succ_pred_natCast, hsub]
  rcases getBuddy_cases a0 d (by rw [e1]; exact h2) with ⟨_, hno⟩ | ⟨n, t', hg, hr⟩
  · have := hno 1 (le_refl _) (Nat.one_lt_two_pow (by omega))
    rw [(hfree 1).2 rfl] at this
    exact absurd this (by decide)
  · obtain ⟨hn, hclr, hset, hrest⟩ := hg.chain 0 1 (Nat.zero_le _)
      (by rw [hlen]; have := Nat.one_le_two_pow (n := num_levels.toNat); omega)
      (by simp) (by simp) ((hfree 1).2 rfl)
      (fun j hj1 hj2 => by simp at hj1; omega)
      (fun m hm1 hm2 => by
        cases hf : isFree a0.tree m with
        | false => rfl
        | true => have := (hfree m).1 hf; simp at hm1; omega)
    refine ⟨t', by rw [hr, hn]; simp, ?_⟩
    intro m
    simp only [Nat.sub_zero, one_mul] at hset hrest
    constructor
    · intro hm
      by_contra hex
      have hall : ∀ j, 1 ≤ j → j ≤ d → m ≠ 2 ^ j + 1 := fun j hj1 hj2 he => hex ⟨j, hj1, hj2, he⟩
      by_cases hm1 : m = 1
      · subst hm1
        have hm' : isFree t' 1 = true := hm
        rw [hclr] at hm'
        exact absurd hm' (by decide)
      · have hm' : isFree t' m = true := hm
        rw [hrest m hm1 hall] at hm'
        exact hm1 ((hfree m).1 hm')
    · rintro ⟨j, hj1, hj2, rfl⟩
      exact hset j hj1 hj2

end BuddyAlloc
